import Mathlib

/-!
Verification of the "Online Clipboard" repository.

This file gives a shallow embedding of the parts of the code base that the
specification talks about and proves (or refutes) the stated properties:

* the clipboard CRUD service (src/lib/clipboard-service.ts),
* the code generation / validation helpers (src/lib/code-utils.ts),
* the in-memory TTL cache (src/lib/cache-service.ts),
* the optimized (cached) service (src/lib/optimized-clipboard-service.ts),
* the retention sweep (src/lib/cleanup-service.ts).

The relational store is modelled as a list of rows.  Timestamps are natural
numbers (milliseconds).  JavaScript strings are modelled as Lean strings;
`String.length` models the JS length (all characters accepted by the code
validator lie in the basic multilingual plane, where the two notions agree).
Asynchronous touches are modelled as running immediately after the operation
that schedules them, and loops are modelled with an explicit fuel argument.

The Prisma schema file is not part of the sources.  Modelled from the spec:
per section 3 of the specification a read mutates only the `lastAccessed`
column, while a write mutates `content` and `updatedAt` (and the touch of
`lastAccessed` that the update data carries); record creation initialises
`createdAt`, `updatedAt` and `lastAccessed` to the current time.
-/

namespace OnlineClipboard

/-- A row of the single `Clipboard` table (types/clipboard.ts, ClipboardData). -/
structure Clipboard where
  id : Nat
  code : String
  content : String
  createdAt : Nat
  updatedAt : Nat
  lastAccessed : Nat
deriving Repr, DecidableEq

/-- The database: the rows of the clipboard table. -/
abbrev DB := List Clipboard

/-- Error categories of ClipboardServiceError (clipboard-service.ts). -/
inductive ErrCode where
  | NOT_FOUND
  | CONFLICT
  | VALIDATION_ERROR
  | DATABASE_ERROR
  | CONTENT_TOO_LARGE
deriving Repr, DecidableEq

/-- Default for the `maxContentSize` option: `options.maxContentSize || 1048576`. -/
def mkMaxContentSize : Option Nat → Nat
  | some n => if n = 0 then 1048576 else n
  | none => 1048576

/-- Default for the `retryAttempts` option: `options.retryAttempts || 3`. -/
def mkRetryAttempts : Option Nat → Nat
  | some n => if n = 0 then 3 else n
  | none => 3

/-- `prisma.clipboard.findUnique({ where: { code } })`. -/
def findUnique (db : DB) (code : String) : Option Clipboard :=
  db.find? (fun r => r.code == code)

/-- Number of rows carrying a given code. -/
def countCode (db : DB) (code : String) : Nat :=
  (db.filter (fun r => r.code == code)).length

/-- `prisma.clipboard.update({ where: { code }, data: { lastAccessed } })`:
a read-path touch, which mutates only the `lastAccessed` column. -/
def touchAccess (db : DB) (code : String) (now : Nat) : DB :=
  db.map (fun r => if r.code == code then { r with lastAccessed := now } else r)

/-- `ClipboardServiceImpl.validateContent`: rejects content longer than the
configured maximum with a CONTENT_TOO_LARGE error. -/
def validateContent (maxContentSize : Nat) (content : String) : Except ErrCode Unit :=
  if content.length > maxContentSize then Except.error ErrCode.CONTENT_TOO_LARGE
  else Except.ok ()

/-- `ClipboardServiceImpl.getOrCreateClipboard`: return the existing row after
touching `lastAccessed`, or create a fresh row with empty content. -/
def getOrCreateClipboard (code : String) (now : Nat) (db : DB) : DB × Clipboard :=
  match findUnique db code with
  | some r => (touchAccess db code now, { r with lastAccessed := now })
  | none =>
      let newClipboard : Clipboard :=
        { id := db.length, code := code, content := "",
          createdAt := now, updatedAt := now, lastAccessed := now }
      (db ++ [newClipboard], newClipboard)

/-- The recovery path of `getOrCreateClipboard` for a P2002 unique-constraint
race: a single re-read, then a touch; a DATABASE_ERROR when the re-read
finds nothing. -/
def getOrCreateOnConflict (code : String) (now : Nat) (db : DB) :
    DB × Except ErrCode Clipboard :=
  match findUnique db code with
  | some r => (touchAccess db code now, Except.ok { r with lastAccessed := now })
  | none => (db, Except.error ErrCode.DATABASE_ERROR)

/-- Input of `upsertClipboard`. -/
structure ClipboardCreateInput where
  code : String
  content : String
deriving Repr, DecidableEq

/-- `prisma.clipboard.upsert`: update `content` (a write, so `updatedAt` moves)
and `lastAccessed` of the existing row, or create the row. -/
def upsertRow (input : ClipboardCreateInput) (now : Nat) (db : DB) : DB × Clipboard :=
  match findUnique db input.code with
  | some r =>
      let r2 := { r with content := input.content, updatedAt := now, lastAccessed := now }
      (db.map (fun s => if s.code == input.code then r2 else s), r2)
  | none =>
      let r2 : Clipboard :=
        { id := db.length, code := input.code, content := input.content,
          createdAt := now, updatedAt := now, lastAccessed := now }
      (db ++ [r2], r2)

/-- `ClipboardServiceImpl.upsertClipboard`: validate the content size first;
only when validation passes is the upsert issued to the store. -/
def upsertClipboard (maxContentSize : Nat) (input : ClipboardCreateInput) (now : Nat)
    (db : DB) : DB × Except ErrCode Clipboard :=
  match validateContent maxContentSize input.content with
  | Except.error e => (db, Except.error e)
  | Except.ok _ =>
      let p := upsertRow input now db
      (p.1, Except.ok p.2)

/-! ### code-utils.ts -/

/-- Character set for generated codes; `0`, `O`, `l` and `I` are excluded. -/
def CODE_CHARSET : String :=
  "abcdefghijkmnopqrstuvwxyzABCDEFGHJKLMNPQRSTUVWXYZ123456789"

/-- `CODE_CHARSET[i]` with the JS index already reduced modulo the length
(`Math.floor(Math.random() * CODE_CHARSET.length)` always lies below it). -/
def charsetAt (i : Nat) : Char :=
  CODE_CHARSET.data.getD (i % CODE_CHARSET.data.length) 'a'

/-- `generateRandomCode`: the requested length, or a random length of 6 to 8
(`length || Math.floor(Math.random() * 3) + 6`; a requested length of 0 is
falsy and also falls back to the random length).  Randomness is modelled by
an arbitrary length draw `randLen` (reduced mod 3) and a stream `randChar`
of character draws. -/
def generateRandomCode (lenArg : Option Nat) (randLen : Nat) (randChar : Nat → Nat) : String :=
  let codeLength := match lenArg with
    | some n => if n = 0 then 6 + randLen % 3 else n
    | none => 6 + randLen % 3
  String.mk ((List.range codeLength).map (fun i => charsetAt (randChar i)))

/-- Result shape of `validateCodeFormat`. -/
structure CodeValidation where
  isValid : Bool
  error : Option String
deriving Repr, DecidableEq

/-- One character of the class `[一-龥a-zA-Z0-9\-_\.]`. -/
def isValidCodeChar (c : Char) : Bool :=
  (0x4e00 ≤ c.toNat && c.toNat ≤ 0x9fa5) ||
  ('a' ≤ c && c ≤ 'z') || ('A' ≤ c && c ≤ 'Z') ||
  ('0' ≤ c && c ≤ '9') || c == '-' || c == '_' || c == '.'

/-- `validateCodeFormat`: nonempty, length 1 to 50, and every character drawn
from the class above (the regex is anchored over one-or-more such characters). -/
def validateCodeFormat (code : String) : CodeValidation :=
  if code.isEmpty then { isValid := false, error := some "代码不能为空" }
  else if code.length < 1 || code.length > 50 then
    { isValid := false, error := some "代码长度必须在1-50个字符之间" }
  else if !(code.data.all isValidCodeChar) then
    { isValid := false, error := some "代码只能包含中文、英文、数字、连字符、下划线和点号" }
  else { isValid := true, error := none }

/-- Digits used by JS `Number.prototype.toString(36)`. -/
def base36Digits : String := "0123456789abcdefghijklmnopqrstuvwxyz"

/-- Little-endian base-36 digit list; the structural `fuel` dominates the
number of digits (the value itself is always enough fuel, since dividing by
36 shrinks a positive number). -/
def base36RevAux : Nat → Nat → List Char
  | 0, _ => []
  | fuel + 1, n =>
      if n = 0 then []
      else base36Digits.data.getD (n % 36) '0' :: base36RevAux fuel (n / 36)

/-- `Date.now().toString(36)`. -/
def toBase36 (n : Nat) : String :=
  if n = 0 then "0" else String.mk (base36RevAux n n).reverse

/-- `generateUniqueCode`: up to `maxRetries` random draws, returning the first
code the existence oracle does not know; otherwise the timestamp fallback
`${generateRandomCode(4)}${Date.now().toString(36)}`.  The oracle together
with the random streams (one per round) model the database and `Math.random`. -/
def generateUniqueCode (maxRetries : Nat) (isCodeExists : String → Bool)
    (randLen : Nat → Nat) (randChar : Nat → Nat → Nat) (now : Nat) : String :=
  go maxRetries 0
where
  go : Nat → Nat → String
    | 0, _ =>
        (generateRandomCode (some 4) 0 (randChar maxRetries)) ++ toBase36 now
    | fuel + 1, i =>
        let code := generateRandomCode none (randLen i) (randChar i)
        if isCodeExists code then go fuel (i + 1) else code

/-! ### cache-service.ts

The `Map`-backed TTL cache.  A JS `Map` iterates in insertion order; it is
modelled as an association list in insertion order, where setting a present
key replaces it in place and setting an absent key appends. -/

/-- One stored cache entry. -/
structure CacheEntry (α : Type) where
  data : α
  timestamp : Nat
  ttl : Nat
deriving Repr, DecidableEq

/-- `Map.prototype.get`. -/
def mapGet {α : Type} (m : List (String × CacheEntry α)) (k : String) :
    Option (CacheEntry α) :=
  (m.find? (fun p => p.1 == k)).map (fun p => p.2)

/-- `Map.prototype.set`: replace in place, or append. -/
def mapSet {α : Type} (m : List (String × CacheEntry α)) (k : String) (v : CacheEntry α) :
    List (String × CacheEntry α) :=
  if m.any (fun p => p.1 == k) then m.map (fun p => if p.1 == k then (k, v) else p)
  else m ++ [(k, v)]

/-- `Map.prototype.delete`. -/
def mapDelete {α : Type} (m : List (String × CacheEntry α)) (k : String) :
    List (String × CacheEntry α) :=
  m.filter (fun p => !(p.1 == k))

/-- The mutable state of a `CacheService` (the cleanup timer is not part of the
value model; the periodic `cleanup` invocation appears as an explicit step). -/
structure CacheService (α : Type) where
  entries : List (String × CacheEntry α)
  defaultTTL : Nat
  maxSize : Nat
deriving Repr

/-- The constructor: `defaultTTL || 5 * 60 * 1000` and `maxSize || 1000`. -/
def mkCacheService (α : Type) (defaultTTL maxSize : Option Nat) : CacheService α :=
  { entries := [],
    defaultTTL := match defaultTTL with
      | some n => if n = 0 then 5 * 60 * 1000 else n
      | none => 5 * 60 * 1000,
    maxSize := match maxSize with
      | some n => if n = 0 then 1000 else n
      | none => 1000 }

/-- The eviction step at the top of `CacheService.set`: when the cache is
full the oldest-inserted key is deleted first — but only when that key is
truthy (`if (oldestKey)`), so an empty-string oldest key is never evicted. -/
def evictIfFull {α : Type} (c : CacheService α) : List (String × CacheEntry α) :=
  if c.entries.length ≥ c.maxSize then
    match c.entries.head? with
    | some p => if p.1 = "" then c.entries else mapDelete c.entries p.1
    | none => c.entries
  else c.entries

/-- The TTL stored with an entry: `ttl || this.defaultTTL`. -/
def storedTTL {α : Type} (c : CacheService α) (ttl : Option Nat) : Nat :=
  match ttl with
  | some t => if t = 0 then c.defaultTTL else t
  | none => c.defaultTTL

/-- `CacheService.set`: evict when full, then store the entry with the current
time and the resolved TTL. -/
def cacheSet {α : Type} (c : CacheService α) (key : String) (data : α) (ttl : Option Nat)
    (now : Nat) : CacheService α :=
  { c with entries :=
      mapSet (evictIfFull c) key { data := data, timestamp := now, ttl := storedTTL c ttl } }

/-- `CacheService.get`: a missing key gives `null`; an entry with
`now - timestamp > ttl` is deleted and gives `null`; otherwise the data. -/
def cacheGet {α : Type} (c : CacheService α) (key : String) (now : Nat) :
    CacheService α × Option α :=
  match mapGet c.entries key with
  | none => (c, none)
  | some e =>
      if now - e.timestamp > e.ttl then
        ({ c with entries := mapDelete c.entries key }, none)
      else (c, some e.data)

/-- `CacheService.delete`. -/
def cacheDelete {α : Type} (c : CacheService α) (key : String) : CacheService α :=
  { c with entries := mapDelete c.entries key }

/-- `CacheService.clear`. -/
def cacheClear {α : Type} (c : CacheService α) : CacheService α :=
  { c with entries := [] }

/-- `CacheService.has`: defined as `this.get(key) !== null`, including the
expiry-deletion side effect of `get`. -/
def cacheHas {α : Type} (c : CacheService α) (key : String) (now : Nat) :
    CacheService α × Bool :=
  let p := cacheGet c key now
  (p.1, p.2.isSome)

/-- `CacheService.cleanup` (the periodic sweep): delete every expired entry. -/
def cacheCleanup {α : Type} (c : CacheService α) (now : Nat) : CacheService α :=
  { c with entries := c.entries.filter (fun p => !(now - p.2.timestamp > p.2.ttl)) }

/-- The operations a client can perform on a cache instance. -/
inductive CacheOp (α : Type) where
  | set (key : String) (data : α) (ttl : Option Nat) (now : Nat)
  | get (key : String) (now : Nat)
  | del (key : String)
  | clear
  | sweep (now : Nat)

/-- State transition of a single cache operation. -/
def applyCacheOp {α : Type} (c : CacheService α) : CacheOp α → CacheService α
  | CacheOp.set k d t now => cacheSet c k d t now
  | CacheOp.get k now => (cacheGet c k now).1
  | CacheOp.del k => cacheDelete c k
  | CacheOp.clear => cacheClear c
  | CacheOp.sweep now => cacheCleanup c now

/-- State after a sequence of cache operations. -/
def applyCacheOps {α : Type} (c : CacheService α) (ops : List (CacheOp α)) : CacheService α :=
  ops.foldl applyCacheOp c

/-! ### optimized-clipboard-service.ts -/

/-- `ClipboardServiceImpl.updateAccessTime`: touch `lastAccessed`; a failure
(row absent) is swallowed with a warning and leaves the store unchanged. -/
def updateAccessTime (db : DB) (code : String) (now : Nat) : DB :=
  match findUnique db code with
  | some _ => touchAccess db code now
  | none => db

/-- `OptimizedClipboardService.getOrCreateClipboard`: serve from the clipboard
cache when possible, scheduling `updateAccessTimeAsync` (modelled as running
immediately afterwards: the base-service touch, then a refresh of the cached
copy); on a cache miss fall through to the base service and cache the result. -/
def optimizedGetOrCreate (code : String) (now : Nat) (cache : CacheService Clipboard)
    (db : DB) : CacheService Clipboard × DB × Clipboard :=
  match cacheGet cache code now with
  | (cache1, some cached) =>
      let db2 := updateAccessTime db code now
      let cache2 :=
        match cacheGet cache1 code now with
        | (c2, some cached2) => cacheSet c2 code { cached2 with lastAccessed := now } none now
        | (c2, none) => c2
      (cache2, db2, cached)
  | (cache1, none) =>
      let p := getOrCreateClipboard code now db
      (cacheSet cache1 code p.2 none now, p.1, p.2)

/-! ### updateClipboard (clipboard-service.ts)

`updateClipboard` re-reads the row, checks the optimistic version, and issues a
conditional update inside a `while (attempt < retryAttempts)` loop; a P2025
(concurrent modification) makes it retry with `attempt++` while
`attempt < retryAttempts - 1`, a P2025 on the last attempt escapes unwrapped,
and custom NOT_FOUND / CONFLICT errors are rethrown immediately.  The store
interaction of each loop iteration is abstracted into an outcome drawn from an
environment indexed by the attempt number. -/

/-- What one iteration of the `updateClipboard` loop can observe. -/
inductive AttemptOutcome where
  | ok (c : Clipboard)
  | missing
  | versionMismatch
  | p2025
  | otherDbError
deriving Repr, DecidableEq

/-- Errors `updateClipboard` can surface. -/
inductive UpdateError where
  | notFound
  | conflict
  | contentTooLarge
  | databaseError
  | prismaP2025
deriving Repr, DecidableEq

/-- The retry loop of `updateClipboard`; the second component counts the
attempts actually made against the store.  The structural counter `gas` stands
for `retryAttempts - attempt`, the number of loop entries still permitted by
`while (attempt < retryAttempts)`; exhausting it is the `while` condition
turning false, which reaches the final CONFLICT throw. -/
def updateClipboardLoop (retryAttempts : Nat) (env : Nat → AttemptOutcome) :
    Nat → Nat → Nat → Except UpdateError Clipboard × Nat
  | 0, _, used => (Except.error UpdateError.conflict, used)
  | gas + 1, attempt, used =>
      if attempt < retryAttempts then
        match env attempt with
        | AttemptOutcome.ok c => (Except.ok c, used + 1)
        | AttemptOutcome.missing => (Except.error UpdateError.notFound, used + 1)
        | AttemptOutcome.versionMismatch => (Except.error UpdateError.conflict, used + 1)
        | AttemptOutcome.p2025 =>
            if attempt < retryAttempts - 1 then
              updateClipboardLoop retryAttempts env gas (attempt + 1) (used + 1)
            else (Except.error UpdateError.prismaP2025, used + 1)
        | AttemptOutcome.otherDbError => (Except.error UpdateError.databaseError, used + 1)
      else (Except.error UpdateError.conflict, used)

/-- `ClipboardServiceImpl.updateClipboard`: validate the content size, then run
the retry loop starting at attempt 0. -/
def updateClipboard (maxContentSize retryAttempts : Nat) (content : String)
    (env : Nat → AttemptOutcome) : Except UpdateError Clipboard × Nat :=
  if content.length > maxContentSize then (Except.error UpdateError.contentTooLarge, 0)
  else updateClipboardLoop retryAttempts env retryAttempts 0 0

/-! ### cleanup-service.ts

The retention sweep.  `getClipboardsForCleanup` orders rows by `lastAccessed`
ascending (modelled by a stable insertion sort), optionally filters rows older
than a cutoff, and takes a batch.  The `while (hasMore)` loops are modelled
with explicit fuel; returning at fuel 0 corresponds to a run that has not
terminated within that many iterations. -/

/-- Sum of the content sizes, as the cleanup statistics report it
(`totalContentSize` of `getStats`; the tests equate it with the summed
content lengths). -/
def totalContentSize (db : DB) : Nat :=
  (db.map (fun r => r.content.length)).sum

/-- Insert into a list ordered by `lastAccessed` ascending. -/
def insertByAccess (c : Clipboard) : List Clipboard → List Clipboard
  | [] => [c]
  | d :: rest =>
      if c.lastAccessed ≤ d.lastAccessed then c :: d :: rest
      else d :: insertByAccess c rest

/-- `orderBy: { lastAccessed: 'asc' }`. -/
def sortByAccess : List Clipboard → List Clipboard
  | [] => []
  | c :: rest => insertByAccess c (sortByAccess rest)

/-- `ClipboardServiceImpl.getClipboardsForCleanup` with the `lastAccessed`
ordering the sweep uses: filter by the optional cutoff, sort ascending by
`lastAccessed`, take the optional limit. -/
def getClipboardsForCleanup (db : DB) (olderThan : Option Nat) (limit : Option Nat) :
    List Clipboard :=
  let filtered := match olderThan with
    | some t => db.filter (fun r => r.lastAccessed < t)
    | none => db
  let sorted := sortByAccess filtered
  match limit with
  | some n => sorted.take n
  | none => sorted

/-- `ClipboardServiceImpl.deleteClipboards`: `deleteMany` of the given codes;
returns the new store and the number of rows removed. -/
def deleteClipboards (db : DB) (codes : List String) : DB × Nat :=
  let db2 := db.filter (fun r => !(codes.contains r.code))
  (db2, db.length - db2.length)

/-- One deletion step of a sweep loop: count the batch on a dry run, delete
its codes otherwise (returning the new store and the deleted count). -/
def sweepStep (dryRun : Bool) (db : DB) (old : List Clipboard) : DB × Nat :=
  if dryRun then (db, old.length)
  else deleteClipboards db (old.map (fun r => r.code))

/-- The per-phase accumulator (`deletedCount`, `freedSpace`, `errors`). -/
structure CleanupAcc where
  deletedCount : Nat
  freedSpace : Nat
  errors : List String
deriving Repr, DecidableEq

/-- The zero accumulator. -/
def emptyAcc : CleanupAcc := { deletedCount := 0, freedSpace := 0, errors := [] }

/-- The `while (hasMore)` loop of `cleanupByAge`: fetch a batch of rows older
than the cutoff, delete it (or merely count it on a dry run), and stop when a
batch comes back smaller than `batchSize`. -/
def cleanupByAgeLoop (fuel cutoff batchSize : Nat) (dryRun : Bool) (db : DB)
    (acc : CleanupAcc) : DB × CleanupAcc :=
  match fuel with
  | 0 => (db, acc)
  | fuel + 1 =>
      let old := getClipboardsForCleanup db (some cutoff) (some batchSize)
      if old.isEmpty then (db, acc)
      else
        let batchContentSize := (old.map (fun r => r.content.length)).sum
        let step := sweepStep dryRun db old
        let acc2 := { acc with
          deletedCount := acc.deletedCount + step.2,
          freedSpace := acc.freedSpace + batchContentSize }
        if old.length < batchSize then (step.1, acc2)
        else cleanupByAgeLoop fuel cutoff batchSize dryRun step.1 acc2

/-- `CleanupServiceImpl.cleanupByAge` (the cutoff date is computed by the
caller, `maxAge` days before now). -/
def cleanupByAge (fuel cutoff batchSize : Nat) (dryRun : Bool) (db : DB) :
    DB × CleanupAcc :=
  cleanupByAgeLoop fuel cutoff batchSize dryRun db emptyAcc

/-- The `while (hasMore && currentReduction < targetReduction)` loop of
`cleanupBySize`: repeatedly fetch and delete the oldest `batchSize` rows,
accumulating the freed size, until the target reduction is reached. -/
def cleanupBySizeLoop (fuel targetReduction batchSize : Nat) (dryRun : Bool) (db : DB)
    (acc : CleanupAcc) (currentReduction : Nat) : DB × CleanupAcc :=
  match fuel with
  | 0 => (db, acc)
  | fuel + 1 =>
      if currentReduction < targetReduction then
        let old := getClipboardsForCleanup db none (some batchSize)
        if old.isEmpty then (db, acc)
        else
          let batchContentSize := (old.map (fun r => r.content.length)).sum
          let step := sweepStep dryRun db old
          let acc2 := { acc with
            deletedCount := acc.deletedCount + step.2,
            freedSpace := acc.freedSpace + batchContentSize }
          if old.length < batchSize then (step.1, acc2)
          else cleanupBySizeLoop fuel targetReduction batchSize dryRun step.1 acc2
            (currentReduction + batchContentSize)
      else (db, acc)

/-- `CleanupServiceImpl.cleanupBySize`: nothing to do when the total size is
within the bound; otherwise reduce by `totalContentSize - maxTotalSize`. -/
def cleanupBySize (fuel maxTotalSize batchSize : Nat) (dryRun : Bool) (db : DB) :
    DB × CleanupAcc :=
  if totalContentSize db ≤ maxTotalSize then (db, emptyAcc)
  else cleanupBySizeLoop fuel (totalContentSize db - maxTotalSize) batchSize dryRun db
    emptyAcc 0

/-- The `while (hasMore && currentDeletion < targetDeletion)` loop of
`cleanupByCount`: each round fetches at most
`min(batchSize, targetDeletion - currentDeletion)` oldest rows. -/
def cleanupByCountLoop (fuel targetDeletion batchSize : Nat) (dryRun : Bool) (db : DB)
    (acc : CleanupAcc) (currentDeletion : Nat) : DB × CleanupAcc :=
  match fuel with
  | 0 => (db, acc)
  | fuel + 1 =>
      if currentDeletion < targetDeletion then
        let remainingToDelete := min batchSize (targetDeletion - currentDeletion)
        let old := getClipboardsForCleanup db none (some remainingToDelete)
        if old.isEmpty then (db, acc)
        else
          let batchContentSize := (old.map (fun r => r.content.length)).sum
          let step := sweepStep dryRun db old
          let acc2 := { acc with
            deletedCount := acc.deletedCount + step.2,
            freedSpace := acc.freedSpace + batchContentSize }
          if old.length < remainingToDelete then (step.1, acc2)
          else cleanupByCountLoop fuel targetDeletion batchSize dryRun step.1 acc2
            (currentDeletion + step.2)
      else (db, acc)

/-- `CleanupServiceImpl.cleanupByCount`. -/
def cleanupByCount (fuel maxCount batchSize : Nat) (dryRun : Bool) (db : DB) :
    DB × CleanupAcc :=
  if db.length ≤ maxCount then (db, emptyAcc)
  else cleanupByCountLoop fuel (db.length - maxCount) batchSize dryRun db emptyAcc 0

/-- Caller-supplied `CleanupOptions` (absent fields take the defaults). -/
structure CleanupOptions where
  maxAge : Option Nat := none
  maxTotalSize : Option Nat := none
  maxCount : Option Nat := none
  batchSize : Option Nat := none
  dryRun : Option Bool := none
deriving Repr

/-- `{ ...this.defaultOptions, ...options }` with the documented defaults. -/
structure ResolvedCleanupOptions where
  maxAge : Nat
  maxTotalSize : Nat
  maxCount : Nat
  batchSize : Nat
  dryRun : Bool
deriving Repr

/-- Merge caller options with the service defaults (30 days, 100 MiB, 10000
rows, batches of 100, no dry run). -/
def resolveOptions (o : CleanupOptions) : ResolvedCleanupOptions :=
  { maxAge := o.maxAge.getD 30,
    maxTotalSize := o.maxTotalSize.getD (100 * 1024 * 1024),
    maxCount := o.maxCount.getD 10000,
    batchSize := o.batchSize.getD 100,
    dryRun := o.dryRun.getD false }

/-- The overall `CleanupResult`. -/
structure CleanupResult where
  deletedCount : Nat
  freedSpace : Nat
  totalProcessed : Nat
  errors : List String
  dryRun : Bool
deriving Repr, DecidableEq

/-- Milliseconds in a day; `cutoffDate.setDate(getDate() - maxAgeDays)` is
modelled as subtracting whole days from the millisecond clock. -/
def dayMillis : Nat := 86400000

/-- `CleanupServiceImpl.cleanup`: read the statistics, then run the age phase,
the size phase and the count phase in order, each only when its bound is
positive, summing their results. -/
def cleanup (fuel : Nat) (options : CleanupOptions) (now : Nat) (db : DB) :
    DB × CleanupResult :=
  let opts := resolveOptions options
  if db.length = 0 then
    (db, { deletedCount := 0, freedSpace := 0, totalProcessed := 0,
           errors := [], dryRun := opts.dryRun })
  else
    let p1 :=
      if opts.maxAge > 0 then
        cleanupByAge fuel (now - opts.maxAge * dayMillis) opts.batchSize opts.dryRun db
      else (db, emptyAcc)
    let p2 :=
      if opts.maxTotalSize > 0 then
        cleanupBySize fuel opts.maxTotalSize opts.batchSize opts.dryRun p1.1
      else (p1.1, emptyAcc)
    let p3 :=
      if opts.maxCount > 0 then
        cleanupByCount fuel opts.maxCount opts.batchSize opts.dryRun p2.1
      else (p2.1, emptyAcc)
    (p3.1,
     { deletedCount := p1.2.deletedCount + p2.2.deletedCount + p3.2.deletedCount,
       freedSpace := p1.2.freedSpace + p2.2.freedSpace + p3.2.freedSpace,
       totalProcessed := db.length,
       errors := p1.2.errors ++ p2.2.errors ++ p3.2.errors,
       dryRun := opts.dryRun })

/-- The least number of oldest-first deletions after which the remaining total
content size is within the bound (the input list is expected ordered by
`lastAccessed` ascending). -/
def neededForSize (maxTotalSize : Nat) : List Clipboard → Nat
  | [] => 0
  | c :: rest =>
      if totalContentSize (c :: rest) ≤ maxTotalSize then 0
      else 1 + neededForSize maxTotalSize rest

/-- The least number of oldest-first deletions freeing at least `t` bytes
(capped at the list length). -/
def neededForReduction : List Clipboard → Nat → Nat
  | _, 0 => 0
  | [], _ + 1 => 0
  | c :: rest, t + 1 => 1 + neededForReduction rest (t + 1 - c.content.length)

/-! ### Helper lemmas -/

theorem find?_append_none {α : Type} (p : α → Bool) (l1 l2 : List α)
    (h : l1.find? p = none) : (l1 ++ l2).find? p = l2.find? p := by
  induction l1 with
  | nil => simp
  | cons a l ih =>
    cases hp : p a with
    | true => rw [List.find?_cons_of_pos _ hp] at h; exact absurd h (by simp)
    | false =>
      have hp2 : ¬ p a = true := by simp [hp]
      rw [List.find?_cons_of_neg _ hp2] at h
      rw [List.cons_append, List.find?_cons_of_neg _ hp2]
      exact ih h

theorem countCode_eq_zero_of_find?_none (db : DB) (code : String)
    (h : findUnique db code = none) : countCode db code = 0 := by
  unfold countCode
  rw [List.length_eq_zero]
  rw [List.filter_eq_nil_iff]
  intro r hr
  have := List.find?_eq_none.mp h r hr
  simpa using this

theorem findUnique_cons_pos (r : Clipboard) (rest : DB) (code : String)
    (h : r.code = code) : findUnique (r :: rest) code = some r := by
  unfold findUnique
  rw [List.find?_cons]
  simp [h]

theorem findUnique_cons_neg (r : Clipboard) (rest : DB) (code : String)
    (h : ¬ r.code = code) : findUnique (r :: rest) code = findUnique rest code := by
  unfold findUnique
  rw [List.find?_cons]
  have hb : (r.code == code) = false := by simp [h]
  rw [hb]

theorem findUnique_touchAccess (db : DB) (code : String) (now : Nat) :
    findUnique (touchAccess db code now) code =
      (findUnique db code).map (fun r => { r with lastAccessed := now }) := by
  induction db with
  | nil => rfl
  | cons r rest ih =>
    show findUnique ((if r.code == code then { r with lastAccessed := now } else r)
        :: touchAccess rest code now) code = _
    by_cases hc : r.code = code
    · rw [if_pos (by simpa using hc)]
      rw [findUnique_cons_pos _ _ _ (by simpa using hc)]
      rw [findUnique_cons_pos _ _ _ hc]
      rfl
    · rw [if_neg (by simpa using hc)]
      rw [findUnique_cons_neg _ _ _ hc, findUnique_cons_neg _ _ _ hc]
      exact ih

theorem mem_touchAccess_of_ne (db : DB) (code : String) (now : Nat) (s : Clipboard)
    (hs : s ∈ db) (hne : s.code ≠ code) : s ∈ touchAccess db code now := by
  unfold touchAccess
  have : (fun r => if r.code == code then { r with lastAccessed := now } else r) s = s := by
    simp [hne]
  exact this ▸ List.mem_map_of_mem _ hs

theorem countCode_touchAccess (db : DB) (code c : String) (now : Nat) :
    countCode (touchAccess db code now) c = countCode db c := by
  induction db with
  | nil => rfl
  | cons r rest ih =>
    unfold countCode touchAccess at ih ⊢
    by_cases hc : r.code == code
    · have : ({ r with lastAccessed := now } : Clipboard).code = r.code := rfl
      simp only [List.map_cons, if_pos hc, List.filter_cons, this]
      cases hrc : (r.code == c) <;> simp_all
    · simp only [List.map_cons, if_neg hc, List.filter_cons]
      cases hrc : (r.code == c) <;> simp_all

/-! ### C2 : over-large content is rejected before any write -/

/-- C2: whenever the content exceeds the configured maximum (1048576 by
default), `upsertClipboard` returns the CONTENT_TOO_LARGE error and the store
is returned unchanged: no record is created or modified. -/
theorem upsert_too_large_no_write (maxContentSize : Nat) (input : ClipboardCreateInput)
    (now : Nat) (db : DB) (h : input.content.length > maxContentSize) :
    upsertClipboard maxContentSize input now db = (db, Except.error ErrCode.CONTENT_TOO_LARGE)
      ∧ mkMaxContentSize none = 1048576 := by
  refine ⟨?_, rfl⟩
  unfold upsertClipboard validateContent
  simp [h]

/-- Evaluation of C2 at a concrete input. -/
theorem upsert_too_large_no_write_witness :
    upsertClipboard 3 { code := "c", content := "abcd" } 0 [] =
      ([], Except.error ErrCode.CONTENT_TOO_LARGE) :=
  (upsert_too_large_no_write 3 { code := "c", content := "abcd" } 0 [] (by decide)).1

/-! ### C3 : get-or-create is an idempotent create -/

/-- C3: for a code with no existing record, `getOrCreateClipboard` creates and
returns a record with empty content, leaving exactly one record for the code;
a second call returns that record (only its `lastAccessed` is refreshed),
still with exactly one record for the code and no growth of the store. -/
theorem getOrCreate_idempotent_create (code : String) (t1 t2 : Nat) (db : DB)
    (h : findUnique db code = none) :
    (getOrCreateClipboard code t1 db).2.content = "" ∧
    countCode (getOrCreateClipboard code t1 db).1 code = 1 ∧
    (getOrCreateClipboard code t2 (getOrCreateClipboard code t1 db).1).2 =
      { (getOrCreateClipboard code t1 db).2 with lastAccessed := t2 } ∧
    countCode (getOrCreateClipboard code t2 (getOrCreateClipboard code t1 db).1).1 code = 1 ∧
    (getOrCreateClipboard code t2 (getOrCreateClipboard code t1 db).1).1.length =
      (getOrCreateClipboard code t1 db).1.length := by
  set newClipboard : Clipboard :=
    { id := db.length, code := code, content := "",
      createdAt := t1, updatedAt := t1, lastAccessed := t1 } with hnew
  have h1 : getOrCreateClipboard code t1 db = (db ++ [newClipboard], newClipboard) := by
    unfold getOrCreateClipboard
    rw [h]
  have hfind : findUnique (db ++ [newClipboard]) code = some newClipboard := by
    unfold findUnique at h ⊢
    rw [find?_append_none _ _ _ h]
    simp [hnew]
  have hcount1 : countCode (db ++ [newClipboard]) code = 1 := by
    unfold countCode
    rw [List.filter_append]
    have h0 : db.filter (fun r => r.code == code) = [] := by
      rw [List.filter_eq_nil_iff]
      intro r hr
      have := List.find?_eq_none.mp h r hr
      simpa using this
    rw [h0]
    simp [hnew]
  have h2 : getOrCreateClipboard code t2 (db ++ [newClipboard]) =
      (touchAccess (db ++ [newClipboard]) code t2,
        { newClipboard with lastAccessed := t2 }) := by
    unfold getOrCreateClipboard
    rw [hfind]
  rw [h1]
  refine ⟨rfl, hcount1, ?_, ?_, ?_⟩
  · rw [h2]
  · rw [h2]
    simpa [countCode_touchAccess] using hcount1
  · rw [h2]
    simp [touchAccess]

/-- Evaluation of C3 at a concrete input. -/
theorem getOrCreate_idempotent_create_witness :
    (getOrCreateClipboard "abc" 5 []).2.content = "" ∧
    countCode (getOrCreateClipboard "abc" 5 []).1 "abc" = 1 ∧
    (getOrCreateClipboard "abc" 9 (getOrCreateClipboard "abc" 5 []).1).2 =
      { (getOrCreateClipboard "abc" 5 []).2 with lastAccessed := 9 } ∧
    countCode (getOrCreateClipboard "abc" 9 (getOrCreateClipboard "abc" 5 []).1).1 "abc" = 1 ∧
    (getOrCreateClipboard "abc" 9 (getOrCreateClipboard "abc" 5 []).1).1.length =
      (getOrCreateClipboard "abc" 5 []).1.length :=
  getOrCreate_idempotent_create "abc" 5 9 [] (by decide)

/-! ### C4 : the code validator accepts exactly the documented strings -/

/-- C4: `validateCodeFormat` declares a code valid exactly when its length is
between 1 and 50 and every character is a CJK ideograph (the block
U+4E00 to U+9FA5 matched by the validator), an ASCII letter, a digit, a
hyphen, an underscore or a dot; every other string, the empty string
included, is rejected together with an error message. -/
theorem validateCodeFormat_charspec (code : String) :
    ((validateCodeFormat code).isValid = true ↔
      (1 ≤ code.length ∧ code.length ≤ 50 ∧ ∀ c ∈ code.data, isValidCodeChar c = true)) ∧
    ((validateCodeFormat code).isValid = false →
      (validateCodeFormat code).error.isSome = true) := by
  unfold validateCodeFormat
  by_cases he : code.isEmpty = true
  · have hempty : code = "" := (String.isEmpty_iff code).mp he
    have hz : code.length = 0 := by rw [hempty]; rfl
    rw [if_pos he]
    refine ⟨⟨fun h => absurd h (by decide), fun h => by omega⟩, fun _ => rfl⟩
  · rw [if_neg he]
    have hne : code ≠ "" := fun h => he (by rw [h]; rfl)
    have hdne : code.data ≠ [] := by
      intro h
      exact hne (by cases code; simp_all)
    have hpos : 1 ≤ code.length :=
      Nat.succ_le_of_lt (List.length_pos.mpr hdne)
    by_cases h50 : code.length > 50
    · have hc : (decide (code.length < 1) || decide (code.length > 50)) = true := by
        simp [h50]
      rw [if_pos hc]
      refine ⟨⟨fun h => absurd h (by decide), fun h => by omega⟩, fun _ => rfl⟩
    · have hc : ¬ ((decide (code.length < 1) || decide (code.length > 50)) = true) := by
        simp
        omega
      rw [if_neg hc]
      by_cases hall : code.data.all isValidCodeChar = true
      · have hb : (!(code.data.all isValidCodeChar)) = false := by rw [hall]; rfl
        rw [if_neg (by simp [hb])]
        refine ⟨⟨fun _ => ⟨hpos, by omega, fun c hc2 => List.all_eq_true.mp hall c hc2⟩,
          fun _ => rfl⟩, fun h => absurd h (by decide)⟩
      · have hb : (!(code.data.all isValidCodeChar)) = true := by
          cases hq : code.data.all isValidCodeChar
          · rfl
          · exact absurd hq hall
        rw [if_pos hb]
        refine ⟨⟨fun h => absurd h (by decide), ?_⟩, fun _ => rfl⟩
        rintro ⟨-, -, h3⟩
        exact absurd (List.all_eq_true.mpr h3) hall

/-- Evaluation of C4 at concrete inputs: a conforming code is accepted, the
empty string is rejected with a message. -/
theorem validateCodeFormat_charspec_witness :
    (validateCodeFormat "ab-7.中_Z").isValid = true ∧
    (validateCodeFormat "").error.isSome = true :=
  ⟨(validateCodeFormat_charspec "ab-7.中_Z").1.mpr ⟨by decide, by decide, by decide⟩,
   (validateCodeFormat_charspec "").2 (by decide)⟩

/-! ### C7 : retry behaviour -/

theorem updateClipboardLoop_used_le (retryAttempts : Nat) (env : Nat → AttemptOutcome) :
    ∀ gas attempt used, (updateClipboardLoop retryAttempts env gas attempt used).2 ≤ used + gas := by
  intro gas
  induction gas with
  | zero => intro attempt used; simp [updateClipboardLoop]
  | succ gas ih =>
    intro attempt used
    unfold updateClipboardLoop
    by_cases h : attempt < retryAttempts
    · rw [if_pos h]
      cases henv : env attempt with
      | ok c => simp
      | missing => simp
      | versionMismatch => simp
      | p2025 =>
        show (if attempt < retryAttempts - 1 then
            updateClipboardLoop retryAttempts env gas (attempt + 1) (used + 1)
          else (Except.error UpdateError.prismaP2025, used + 1)).2 ≤ used + (gas + 1)
        by_cases h2 : attempt < retryAttempts - 1
        · rw [if_pos h2]
          have := ih (attempt + 1) (used + 1)
          omega
        · rw [if_neg h2]
          simp
      | otherDbError => simp
    · rw [if_neg h]
      simp

/-- A sample existing row, used by the concrete update-retry runs. -/
def exClip : Clipboard :=
  { id := 0, code := "z", content := "hi", createdAt := 0, updatedAt := 0, lastAccessed := 0 }

/-- An environment whose first conditional update fails with P2025 and whose
later attempts succeed. -/
def exRetryEnv : Nat → AttemptOutcome
  | 0 => AttemptOutcome.p2025
  | _ + 1 => AttemptOutcome.ok exClip

/-- C7 counterexample: `updateClipboard` does re-attempt a failed database
operation.  With the default 3 retry attempts and a first conditional update
failing with P2025, the loop issues a second attempt and succeeds: two
attempts are used, not one. -/
theorem updateClipboard_retries_cx :
    updateClipboardLoop 3 exRetryEnv 3 0 0 = (Except.ok exClip, 2) ∧
    1 < (updateClipboardLoop 3 exRetryEnv 3 0 0).2 :=
  ⟨rfl, by decide⟩

/-- C7 amended: besides the one-shot duplicate-key re-read of
`getOrCreateClipboard` (which performs exactly one re-read: an immediate
touch-and-return when the row appears, an immediate DATABASE_ERROR otherwise),
`updateClipboard` retries its conditional update on P2025 conflicts; its
attempts never exceed `retryAttempts`, and a first successful attempt means no
retry happens at all. -/
theorem updateClipboard_retry_bound (retryAttempts : Nat) (env : Nat → AttemptOutcome)
    (h : 1 ≤ retryAttempts) :
    (updateClipboardLoop retryAttempts env retryAttempts 0 0).2 ≤ retryAttempts ∧
    (∀ c, env 0 = AttemptOutcome.ok c →
      updateClipboardLoop retryAttempts env retryAttempts 0 0 = (Except.ok c, 1)) ∧
    (∀ code now db r, findUnique db code = some r →
      getOrCreateOnConflict code now db =
        (touchAccess db code now, Except.ok { r with lastAccessed := now })) ∧
    (∀ code now db, findUnique db code = none →
      getOrCreateOnConflict code now db = (db, Except.error ErrCode.DATABASE_ERROR)) := by
  refine ⟨?_, ?_, ?_, ?_⟩
  · have := updateClipboardLoop_used_le retryAttempts env retryAttempts 0 0
    omega
  · intro c henv
    obtain ⟨g, rfl⟩ : ∃ g, retryAttempts = g + 1 := ⟨retryAttempts - 1, by omega⟩
    unfold updateClipboardLoop
    rw [if_pos (by omega), henv]
  · intro code now db r hfind
    unfold getOrCreateOnConflict
    rw [hfind]
  · intro code now db hfind
    unfold getOrCreateOnConflict
    rw [hfind]

/-- Evaluation of C7 (amended) at a concrete input. -/
theorem updateClipboard_retry_bound_witness :
    (updateClipboardLoop 3 (fun _ => AttemptOutcome.ok exClip) 3 0 0).2 ≤ 3 ∧
    updateClipboardLoop 3 (fun _ => AttemptOutcome.ok exClip) 3 0 0 = (Except.ok exClip, 1) := by
  have h := updateClipboard_retry_bound 3 (fun _ => AttemptOutcome.ok exClip) (by decide)
  exact ⟨h.1, h.2.1 exClip rfl⟩

/-! ### C5 : expired cache entries are never served -/

theorem mapGet_replace {α : Type} (m : List (String × CacheEntry α)) (k : String)
    (v : CacheEntry α) (h : m.any (fun p => p.1 == k) = true) :
    mapGet (m.map (fun p => if p.1 == k then (k, v) else p)) k = some v := by
  induction m with
  | nil => simp at h
  | cons p rest ih =>
    by_cases hp : p.1 = k
    · have hb : (p.1 == k) = true := by simp [hp]
      unfold mapGet
      rw [List.map_cons, if_pos hb]
      rw [List.find?_cons_of_pos _ (by simp)]
      rfl
    · have hb : (p.1 == k) = false := by simp [hp]
      have hrest : rest.any (fun p => p.1 == k) = true := by
        rw [List.any_cons, hb] at h
        simpa using h
      unfold mapGet at ih ⊢
      rw [List.map_cons, if_neg (by simp [hb])]
      rw [List.find?_cons_of_neg _ (by simp [hp])]
      exact ih hrest

theorem mapGet_append_self {α : Type} (m : List (String × CacheEntry α)) (k : String)
    (v : CacheEntry α) (h : m.any (fun p => p.1 == k) = false) :
    mapGet (m ++ [(k, v)]) k = some v := by
  unfold mapGet
  have hnone : m.find? (fun p => p.1 == k) = none := by
    rw [List.find?_eq_none]
    intro x hx
    intro hxk
    have hk : m.any (fun p => p.1 == k) = true := List.any_eq_true.mpr ⟨x, hx, hxk⟩
    rw [h] at hk
    exact absurd hk (by simp)
  rw [find?_append_none _ _ _ hnone]
  rw [List.find?_cons_of_pos _ (by simp)]
  rfl

theorem mapGet_mapSet_self {α : Type} (m : List (String × CacheEntry α)) (k : String)
    (v : CacheEntry α) : mapGet (mapSet m k v) k = some v := by
  unfold mapSet
  by_cases h : m.any (fun p => p.1 == k) = true
  · rw [if_pos h]
    exact mapGet_replace m k v h
  · rw [if_neg h]
    exact mapGet_append_self m k v (by rwa [Bool.not_eq_true] at h)

theorem mapGet_mapDelete_self {α : Type} (m : List (String × CacheEntry α)) (k : String) :
    mapGet (mapDelete m k) k = none := by
  unfold mapGet mapDelete
  rw [Option.map_eq_none']
  rw [List.find?_eq_none]
  intro x hx
  have h2 := (List.mem_filter.mp hx).2
  simp at h2
  simp [h2]

theorem cacheGet_expired {α : Type} (c : CacheService α) (key : String) (now : Nat)
    (e : CacheEntry α) (hget : mapGet c.entries key = some e)
    (hexp : now - e.timestamp > e.ttl) :
    (cacheGet c key now).2 = none ∧
    mapGet (cacheGet c key now).1.entries key = none ∧
    (cacheHas c key now).2 = false := by
  have hrun : cacheGet c key now = ({ c with entries := mapDelete c.entries key }, none) := by
    unfold cacheGet
    rw [hget]
    show (if now - e.timestamp > e.ttl then
        ({ c with entries := mapDelete c.entries key }, none)
      else (c, some e.data)) = ({ c with entries := mapDelete c.entries key }, none)
    rw [if_pos hexp]
  refine ⟨by rw [hrun], ?_, ?_⟩
  · rw [hrun]
    exact mapGet_mapDelete_self c.entries key
  · unfold cacheHas
    rw [hrun]
    rfl

/-- C5: an entry stored by `set(key, data, ttl)` at time `t` is, at any time
more than `ttl` milliseconds past `t`, not returned by `get` (which instead
deletes it from the map) and not reported present by `has`. -/
theorem cache_expired_entry_not_served (α : Type) (c : CacheService α) (key : String)
    (data : α) (ttl t now : Nat) (httl : ttl ≠ 0) (hlate : now > t + ttl) :
    (cacheGet (cacheSet c key data (some ttl) t) key now).2 = none ∧
    mapGet (cacheGet (cacheSet c key data (some ttl) t) key now).1.entries key = none ∧
    (cacheHas (cacheSet c key data (some ttl) t) key now).2 = false := by
  have hstored : mapGet (cacheSet c key data (some ttl) t).entries key =
      some { data := data, timestamp := t, ttl := ttl } := by
    simp only [cacheSet, storedTTL]
    rw [if_neg httl]
    exact mapGet_mapSet_self _ key _
  exact cacheGet_expired _ key now _ hstored (by simp; omega)

/-- Evaluation of C5 at a concrete input. -/
theorem cache_expired_entry_not_served_witness :
    (cacheGet (cacheSet (mkCacheService Nat none none) "k" 5 (some 10) 0) "k" 11).2 = none ∧
    mapGet (cacheGet (cacheSet (mkCacheService Nat none none) "k" 5 (some 10) 0) "k" 11).1.entries
      "k" = none ∧
    (cacheHas (cacheSet (mkCacheService Nat none none) "k" 5 (some 10) 0) "k" 11).2 = false :=
  cache_expired_entry_not_served Nat (mkCacheService Nat none none) "k" 5 10 0 11
    (by decide) (by decide)

/-! ### C6 : reads touch lastAccessed and nothing else -/

theorem optimized_db_eq_touch (code : String) (now : Nat) (cache : CacheService Clipboard)
    (db : DB) (r : Clipboard) (h : findUnique db code = some r) :
    (optimizedGetOrCreate code now cache db).2.1 = touchAccess db code now := by
  obtain ⟨c1, o, hcg⟩ : ∃ c1 o, cacheGet cache code now = (c1, o) := ⟨_, _, rfl⟩
  unfold optimizedGetOrCreate
  rw [hcg]
  cases o with
  | some cached =>
      show updateAccessTime db code now = touchAccess db code now
      unfold updateAccessTime
      rw [h]
  | none =>
      show (getOrCreateClipboard code now db).1 = touchAccess db code now
      unfold getOrCreateClipboard
      rw [h]

/-- C6: reading an existing clipboard, through the base service or through the
cached service (cache hits included), leaves the store with that record
carrying `lastAccessed = now` and every other field — `content`, `code`,
`createdAt` (and `updatedAt`) — unchanged; records under other codes are
untouched as well. -/
theorem read_touches_only_lastAccessed (code : String) (now : Nat) (db : DB)
    (cache : CacheService Clipboard) (r : Clipboard) (h : findUnique db code = some r) :
    (findUnique (getOrCreateClipboard code now db).1 code =
        some { r with lastAccessed := now } ∧
      (getOrCreateClipboard code now db).2 = { r with lastAccessed := now } ∧
      ∀ s ∈ db, s.code ≠ code → s ∈ (getOrCreateClipboard code now db).1) ∧
    (findUnique (optimizedGetOrCreate code now cache db).2.1 code =
        some { r with lastAccessed := now } ∧
      ∀ s ∈ db, s.code ≠ code → s ∈ (optimizedGetOrCreate code now cache db).2.1) := by
  have hbase : getOrCreateClipboard code now db =
      (touchAccess db code now, { r with lastAccessed := now }) := by
    unfold getOrCreateClipboard
    rw [h]
  have hfind : findUnique (touchAccess db code now) code =
      some { r with lastAccessed := now } := by
    rw [findUnique_touchAccess, h]
    rfl
  have hopt := optimized_db_eq_touch code now cache db r h
  refine ⟨⟨?_, ?_, ?_⟩, ⟨?_, ?_⟩⟩
  · rw [hbase]
    exact hfind
  · rw [hbase]
  · intro s hs hne
    rw [hbase]
    exact mem_touchAccess_of_ne db code now s hs hne
  · rw [hopt]
    exact hfind
  · intro s hs hne
    rw [hopt]
    exact mem_touchAccess_of_ne db code now s hs hne

/-- The sample row read by the C6 witness. -/
def exRow : Clipboard :=
  { id := 0, code := "w", content := "abc", createdAt := 1, updatedAt := 2, lastAccessed := 3 }

/-- Evaluation of C6 at a concrete input. -/
theorem read_touches_only_lastAccessed_witness :
    (findUnique (getOrCreateClipboard "w" 9 [exRow]).1 "w" =
      some { exRow with lastAccessed := 9 }) ∧
    (findUnique
        (optimizedGetOrCreate "w" 9 (mkCacheService Clipboard none none) [exRow]).2.1 "w" =
      some { exRow with lastAccessed := 9 }) := by
  have h := read_touches_only_lastAccessed "w" 9 [exRow]
    (mkCacheService Clipboard none none) exRow (by decide)
  exact ⟨h.1.1, h.2.1⟩

/-! ### C8 : the cache capacity bound -/

theorem mem_mapSet {α : Type} (m : List (String × CacheEntry α)) (k : String)
    (v : CacheEntry α) (q : String × CacheEntry α) (hq : q ∈ mapSet m k v) :
    q = (k, v) ∨ q ∈ m := by
  unfold mapSet at hq
  by_cases h : m.any (fun p => p.1 == k) = true
  · rw [if_pos h] at hq
    obtain ⟨p, hp, hpq⟩ := List.mem_map.mp hq
    by_cases hpk : p.1 = k
    · left
      rw [← hpq, if_pos (by simp [hpk])]
    · right
      rw [← hpq, if_neg (by simp [hpk])]
      exact hp
  · rw [if_neg h] at hq
    rcases List.mem_append.mp hq with h1 | h1
    · right
      exact h1
    · left
      simpa using h1

theorem length_mapSet_le {α : Type} (m : List (String × CacheEntry α)) (k : String)
    (v : CacheEntry α) : (mapSet m k v).length ≤ m.length + 1 := by
  unfold mapSet
  by_cases h : m.any (fun p => p.1 == k) = true
  · rw [if_pos h, List.length_map]
    omega
  · rw [if_neg h]
    simp

theorem mem_evictIfFull {α : Type} (c : CacheService α) (q : String × CacheEntry α)
    (hq : q ∈ evictIfFull c) : q ∈ c.entries := by
  unfold evictIfFull at hq
  by_cases h : c.entries.length ≥ c.maxSize
  · rw [if_pos h] at hq
    cases hh : c.entries.head? with
    | none => simp only [hh] at hq; exact hq
    | some p =>
      simp only [hh] at hq
      by_cases hp : p.1 = ""
      · rw [if_pos hp] at hq
        exact hq
      · rw [if_neg hp] at hq
        exact List.mem_of_mem_filter hq
  · rw [if_neg h] at hq
    exact hq

theorem evictIfFull_length_lt {α : Type} (c : CacheService α) (hmax : 1 ≤ c.maxSize)
    (hkeys : ∀ p ∈ c.entries, p.1 ≠ "") (hlen : c.entries.length ≤ c.maxSize) :
    (evictIfFull c).length < c.maxSize := by
  unfold evictIfFull
  by_cases h : c.entries.length ≥ c.maxSize
  · rw [if_pos h]
    cases hm : c.entries with
    | nil =>
      rw [hm] at h
      simp at h
      omega
    | cons p rest =>
      simp only [List.head?_cons]
      rw [if_neg (hkeys p (by rw [hm]; exact List.mem_cons_self p rest))]
      unfold mapDelete
      have h1 : (List.filter (fun q => !(q.1 == p.1)) (p :: rest)).length ≤ rest.length := by
        rw [List.filter_cons]
        rw [if_neg (by simp)]
        exact List.length_filter_le _ _
      have h3 : c.entries.length = rest.length + 1 := by
        rw [hm]
        simp
      omega
  · rw [if_neg h]
    omega

theorem cacheSet_inv {α : Type} (c : CacheService α) (key : String) (data : α)
    (ttl : Option Nat) (now : Nat) (hmax : 1 ≤ c.maxSize)
    (hkeys : ∀ p ∈ c.entries, p.1 ≠ "") (hlen : c.entries.length ≤ c.maxSize)
    (hkey : key ≠ "") :
    (∀ p ∈ (cacheSet c key data ttl now).entries, p.1 ≠ "") ∧
    (cacheSet c key data ttl now).entries.length ≤ c.maxSize := by
  constructor
  · intro p hp
    rcases mem_mapSet _ _ _ p hp with h | h
    · rw [h]
      exact hkey
    · exact hkeys p (mem_evictIfFull c p h)
  · have h1 := length_mapSet_le (evictIfFull c) key
      ({ data := data, timestamp := now, ttl := storedTTL c ttl } : CacheEntry α)
    have h2 := evictIfFull_length_lt c hmax hkeys hlen
    show (mapSet (evictIfFull c) key _).length ≤ c.maxSize
    omega

theorem cacheGet_state {α : Type} (c : CacheService α) (key : String) (now : Nat) :
    (cacheGet c key now).1 = c ∨
    (cacheGet c key now).1 = { c with entries := mapDelete c.entries key } := by
  unfold cacheGet
  cases h : mapGet c.entries key with
  | none => left; rfl
  | some e =>
    by_cases hexp : now - e.timestamp > e.ttl
    · right
      show ((if now - e.timestamp > e.ttl then
          ({ c with entries := mapDelete c.entries key }, (none : Option α))
        else (c, some e.data)).1 : CacheService α) = _
      rw [if_pos hexp]
    · left
      show ((if now - e.timestamp > e.ttl then
          ({ c with entries := mapDelete c.entries key }, (none : Option α))
        else (c, some e.data)).1 : CacheService α) = _
      rw [if_neg hexp]

/-- Whether an operation only stores truthy (nonempty) keys. -/
def opKeyTruthy {α : Type} : CacheOp α → Bool
  | CacheOp.set k _ _ _ => k != ""
  | _ => true

theorem filter_entries_inv {α : Type} (m : List (String × CacheEntry α)) (M : Nat)
    (f : String × CacheEntry α → Bool) (hkeys : ∀ p ∈ m, p.1 ≠ "") (hlen : m.length ≤ M) :
    (∀ p ∈ m.filter f, p.1 ≠ "") ∧ (m.filter f).length ≤ M :=
  ⟨fun p hp => hkeys p (List.mem_of_mem_filter hp),
   Nat.le_trans (List.length_filter_le f m) hlen⟩

theorem applyCacheOp_inv {α : Type} (c : CacheService α) (op : CacheOp α)
    (hmax : 1 ≤ c.maxSize) (hkeys : ∀ p ∈ c.entries, p.1 ≠ "")
    (hlen : c.entries.length ≤ c.maxSize) (hop : opKeyTruthy op = true) :
    (∀ p ∈ (applyCacheOp c op).entries, p.1 ≠ "") ∧
    (applyCacheOp c op).entries.length ≤ c.maxSize ∧
    (applyCacheOp c op).maxSize = c.maxSize := by
  cases op with
  | set k d t now =>
    have hk : k ≠ "" := by simpa [opKeyTruthy] using hop
    have h := cacheSet_inv c k d t now hmax hkeys hlen hk
    exact ⟨h.1, h.2, rfl⟩
  | get k now =>
    show (∀ p ∈ (cacheGet c k now).1.entries, p.1 ≠ "") ∧
      (cacheGet c k now).1.entries.length ≤ c.maxSize ∧ (cacheGet c k now).1.maxSize = c.maxSize
    rcases cacheGet_state c k now with h | h <;> rw [h]
    · exact ⟨hkeys, hlen, rfl⟩
    · have := filter_entries_inv c.entries c.maxSize (fun p => !(p.1 == k)) hkeys hlen
      exact ⟨this.1, this.2, rfl⟩
  | del k =>
    have := filter_entries_inv c.entries c.maxSize (fun p => !(p.1 == k)) hkeys hlen
    exact ⟨this.1, this.2, rfl⟩
  | clear =>
    refine ⟨?_, ?_, rfl⟩
    · intro p hp
      simp [applyCacheOp, cacheClear] at hp
    · show ([] : List (String × CacheEntry α)).length ≤ c.maxSize
      simp
  | sweep now =>
    have := filter_entries_inv c.entries c.maxSize
      (fun p => !(now - p.2.timestamp > p.2.ttl)) hkeys hlen
    exact ⟨this.1, this.2, rfl⟩

theorem applyCacheOps_inv {α : Type} (ops : List (CacheOp α)) :
    ∀ c : CacheService α, 1 ≤ c.maxSize → (∀ p ∈ c.entries, p.1 ≠ "") →
    c.entries.length ≤ c.maxSize → (∀ op ∈ ops, opKeyTruthy op = true) →
    (applyCacheOps c ops).entries.length ≤ c.maxSize ∧
    (applyCacheOps c ops).maxSize = c.maxSize ∧
    (∀ p ∈ (applyCacheOps c ops).entries, p.1 ≠ "") := by
  induction ops with
  | nil => exact fun c h1 h2 h3 _ => ⟨h3, rfl, h2⟩
  | cons op rest ih =>
    intro c h1 h2 h3 h4
    have hop := h4 op (List.mem_cons_self _ _)
    have hstep := applyCacheOp_inv c op h1 h2 h3 hop
    have hops : ∀ o ∈ rest, opKeyTruthy o = true := fun o ho => h4 o (List.mem_cons_of_mem _ ho)
    have hrec := ih (applyCacheOp c op) (hstep.2.2 ▸ h1) hstep.1 (hstep.2.2 ▸ hstep.2.1) hops
    show (applyCacheOps (applyCacheOp c op) rest).entries.length ≤ c.maxSize ∧
      (applyCacheOps (applyCacheOp c op) rest).maxSize = c.maxSize ∧
      (∀ p ∈ (applyCacheOps (applyCacheOp c op) rest).entries, p.1 ≠ "")
    refine ⟨?_, ?_, hrec.2.2⟩
    · have := hrec.1
      omega
    · rw [hrec.2.1, hstep.2.2]

/-- The cache run by the C8 counterexample (capacity 1). -/
def exCache : CacheService Nat := mkCacheService Nat none (some 1)

/-- C8 counterexample: the cache can hold more than `maxSize` entries.  With
capacity 1, setting the empty-string key and then another key leaves 2
entries: `if (oldestKey)` treats the empty-string oldest key as falsy and
skips the eviction. -/
theorem cache_exceeds_maxSize_cx :
    (applyCacheOps exCache
      [CacheOp.set "" 0 none 0, CacheOp.set "x" 1 none 0]).entries.length = 2 ∧
    exCache.maxSize = 1 := by
  constructor <;> rfl

/-- C8 amended: as long as every key ever stored is truthy (nonempty), a full
cache evicts its oldest entry before inserting and the entry count never
exceeds `maxSize` under any sequence of set, get, delete, clear and cleanup
operations; moreover every constructed cache has `maxSize` at least 1.  (With
an empty-string key the eviction is skipped and the bound can be exceeded, as
the counterexample shows.) -/
theorem cache_size_invariant (α : Type) (c : CacheService α) (ops : List (CacheOp α))
    (hmax : 1 ≤ c.maxSize) (hkeys : ∀ p ∈ c.entries, p.1 ≠ "")
    (hlen : c.entries.length ≤ c.maxSize)
    (hops : ∀ op ∈ ops, opKeyTruthy op = true) :
    (applyCacheOps c ops).entries.length ≤ c.maxSize ∧
    (∀ d o, 1 ≤ (mkCacheService α d o).maxSize) := by
  refine ⟨(applyCacheOps_inv ops c hmax hkeys hlen hops).1, ?_⟩
  intro d o
  cases o with
  | none => simp [mkCacheService]
  | some n =>
    by_cases hn : n = 0
    · simp [mkCacheService, hn]
    · simp [mkCacheService, hn]
      omega

/-- Evaluation of C8 (amended) at a concrete input: two inserts into a
capacity-1 cache with truthy keys leave at most one entry. -/
theorem cache_size_invariant_witness :
    (applyCacheOps exCache
      [CacheOp.set "a" 0 none 0, CacheOp.set "b" 1 none 0]).entries.length ≤ 1 := by
  have h := cache_size_invariant Nat exCache
    [CacheOp.set "a" 0 none 0, CacheOp.set "b" 1 none 0]
    (by decide) (by intro p hp; simp [exCache, mkCacheService] at hp)
    (by decide) (by decide)
  exact h.1

/-! ### C10 : generated codes are well-formed -/

theorem getD_mem_of_lt (l : List Char) (i : Nat) (d : Char) (h : i < l.length) :
    l.getD i d ∈ l := by
  induction l generalizing i with
  | nil => simp at h
  | cons a t ih =>
    cases i with
    | zero =>
        rw [List.getD_cons_zero]
        exact List.mem_cons_self a t
    | succ j =>
        rw [List.getD_cons_succ]
        refine List.mem_cons_of_mem a (ih j ?_)
        simp at h
        omega

theorem CODE_CHARSET_data_length : CODE_CHARSET.data.length = 58 := by decide

theorem charsetAt_mem (j : Nat) : charsetAt j ∈ CODE_CHARSET.data := by
  unfold charsetAt
  apply getD_mem_of_lt
  exact Nat.mod_lt j (by rw [CODE_CHARSET_data_length]; norm_num)

theorem CODE_CHARSET_valid : ∀ c ∈ CODE_CHARSET.data, isValidCodeChar c = true := by decide

theorem base36Digits_valid : ∀ c ∈ base36Digits.data, isValidCodeChar c = true := by decide

theorem base36Digits_data_length : base36Digits.data.length = 36 := by decide

theorem generateRandomCode_none_length (rl : Nat) (rc : Nat → Nat) :
    (generateRandomCode none rl rc).length = 6 + rl % 3 := by
  unfold generateRandomCode
  show (List.map (fun i => charsetAt (rc i)) (List.range (6 + rl % 3))).length = 6 + rl % 3
  rw [List.length_map, List.length_range]

theorem generateRandomCode_some_length (n : Nat) (rl : Nat) (rc : Nat → Nat) (hn : n ≠ 0) :
    (generateRandomCode (some n) rl rc).length = n := by
  unfold generateRandomCode
  show (List.map (fun i => charsetAt (rc i)) (List.range (if n = 0 then 6 + rl % 3 else n))).length
    = n
  rw [if_neg hn, List.length_map, List.length_range]

theorem generateRandomCode_chars (lenArg : Option Nat) (rl : Nat) (rc : Nat → Nat) :
    ∀ c ∈ (generateRandomCode lenArg rl rc).data, c ∈ CODE_CHARSET.data := by
  intro c hc
  cases lenArg with
  | none =>
    have hc2 : c ∈ List.map (fun i => charsetAt (rc i)) (List.range (6 + rl % 3)) := hc
    obtain ⟨i, _, rfl⟩ := List.mem_map.mp hc2
    exact charsetAt_mem (rc i)
  | some n =>
    have hc2 : c ∈ List.map (fun i => charsetAt (rc i))
        (List.range (if n = 0 then 6 + rl % 3 else n)) := hc
    obtain ⟨i, _, rfl⟩ := List.mem_map.mp hc2
    exact charsetAt_mem (rc i)

/-- A string of length 1 to 50 over the accepted character class passes
`validateCodeFormat`. -/
theorem validateCodeFormat_isValid_of (code : String) (h1 : 1 ≤ code.length)
    (h2 : code.length ≤ 50) (h3 : ∀ c ∈ code.data, isValidCodeChar c = true) :
    (validateCodeFormat code).isValid = true := by
  unfold validateCodeFormat
  have hne : ¬ code.isEmpty = true := by
    intro he
    have := (String.isEmpty_iff code).mp he
    subst this
    exact absurd h1 (by decide)
  rw [if_neg hne]
  rw [if_neg (show ¬ ((decide (code.length < 1) || decide (code.length > 50)) = true) by
    simp
    omega)]
  rw [if_neg (show ¬ ((!(code.data.all isValidCodeChar)) = true) by
    rw [List.all_eq_true.mpr h3]
    simp)]

theorem base36RevAux_chars : ∀ fuel n, ∀ c ∈ base36RevAux fuel n, c ∈ base36Digits.data := by
  intro fuel
  induction fuel with
  | zero =>
    intro n c hc
    simp [base36RevAux] at hc
  | succ fuel ih =>
    intro n c hc
    unfold base36RevAux at hc
    by_cases hn : n = 0
    · rw [if_pos hn] at hc
      simp at hc
    · rw [if_neg hn] at hc
      rcases List.mem_cons.mp hc with h | h
      · rw [h]
        apply getD_mem_of_lt
        rw [base36Digits_data_length]
        exact Nat.mod_lt n (by norm_num)
      · exact ih (n / 36) c h

theorem base36RevAux_length_le : ∀ fuel k n, n < 36 ^ k → (base36RevAux fuel n).length ≤ k := by
  intro fuel
  induction fuel with
  | zero =>
    intro k n _
    simp [base36RevAux]
  | succ fuel ih =>
    intro k n h
    unfold base36RevAux
    by_cases hn : n = 0
    · rw [if_pos hn]
      simp
    · rw [if_neg hn]
      cases k with
      | zero =>
        rw [pow_zero] at h
        omega
      | succ k =>
        rw [List.length_cons]
        have hdiv : n / 36 < 36 ^ k := by
          rw [Nat.div_lt_iff_lt_mul (by norm_num : 0 < 36)]
          calc n < 36 ^ (k + 1) := h
            _ = 36 ^ k * 36 := by ring
        have := ih k (n / 36) hdiv
        omega

theorem toBase36_chars (n : Nat) : ∀ c ∈ (toBase36 n).data, isValidCodeChar c = true := by
  unfold toBase36
  by_cases hn : n = 0
  · rw [if_pos hn]
    decide
  · rw [if_neg hn]
    intro c hc
    have hc2 : c ∈ (base36RevAux n n).reverse := hc
    rw [List.mem_reverse] at hc2
    exact base36Digits_valid c (base36RevAux_chars n n c hc2)

theorem toBase36_length_le (n : Nat) (h : n < 36 ^ 11) : (toBase36 n).length ≤ 11 := by
  unfold toBase36
  by_cases hn : n = 0
  · rw [if_pos hn]
    decide
  · rw [if_neg hn]
    show (base36RevAux n n).reverse.length ≤ 11
    rw [List.length_reverse]
    exact base36RevAux_length_le n 11 n h

theorem generateRandomCode_none_valid (rl : Nat) (rc : Nat → Nat) :
    (validateCodeFormat (generateRandomCode none rl rc)).isValid = true := by
  apply validateCodeFormat_isValid_of
  · rw [generateRandomCode_none_length]
    omega
  · rw [generateRandomCode_none_length]
    have := Nat.mod_lt rl (show 0 < 3 by norm_num)
    omega
  · intro c hc
    exact CODE_CHARSET_valid c (generateRandomCode_chars none rl rc c hc)

theorem fallback_valid (maxRetries now : Nat) (randChar : Nat → Nat → Nat)
    (h : now < 2 ^ 53) :
    (validateCodeFormat
      ((generateRandomCode (some 4) 0 (randChar maxRetries)) ++ toBase36 now)).isValid
      = true := by
  have h36 : now < 36 ^ 11 := lt_of_lt_of_le h (by norm_num)
  apply validateCodeFormat_isValid_of
  · rw [String.length_append, generateRandomCode_some_length 4 _ _ (by norm_num)]
    omega
  · rw [String.length_append, generateRandomCode_some_length 4 _ _ (by norm_num)]
    have := toBase36_length_le now h36
    omega
  · intro c hc
    rw [String.data_append] at hc
    rcases List.mem_append.mp hc with h1 | h1
    · exact CODE_CHARSET_valid c (generateRandomCode_chars (some 4) 0 _ c h1)
    · exact toBase36_chars now c h1

theorem generateUniqueCode_go_valid (maxRetries : Nat) (isCodeExists : String → Bool)
    (randLen : Nat → Nat) (randChar : Nat → Nat → Nat) (now : Nat) (h : now < 2 ^ 53) :
    ∀ fuel i, (validateCodeFormat
      (generateUniqueCode.go maxRetries isCodeExists randLen randChar now fuel i)).isValid
      = true := by
  intro fuel
  induction fuel with
  | zero =>
    intro i
    exact fallback_valid maxRetries now randChar h
  | succ fuel ih =>
    intro i
    unfold generateUniqueCode.go
    by_cases he : isCodeExists (generateRandomCode none (randLen i) (randChar i)) = true
    · rw [if_pos he]
      exact ih (i + 1)
    · rw [if_neg he]
      exact generateRandomCode_none_valid (randLen i) (randChar i)

/-- C10: a random code has length 6 to 8 (or exactly the requested positive
length) and draws every character from the confusion-free charset, which
excludes `0`, `O`, `l` and `I`; and every code `generateUniqueCode` returns —
its timestamp fallback included, for any clock value below the JS safe-integer
bound — passes `validateCodeFormat`. -/
theorem generated_codes_valid (maxRetries : Nat) (isCodeExists : String → Bool)
    (randLen : Nat → Nat) (randChar : Nat → Nat → Nat) (now : Nat) (n : Nat)
    (rl : Nat) (rc : Nat → Nat) (hn : 1 ≤ n) (hnow : now < 2 ^ 53) :
    (6 ≤ (generateRandomCode none rl rc).length ∧
      (generateRandomCode none rl rc).length ≤ 8) ∧
    (generateRandomCode (some n) rl rc).length = n ∧
    (∀ c ∈ (generateRandomCode none rl rc).data, c ∈ CODE_CHARSET.data) ∧
    (∀ c ∈ (generateRandomCode (some n) rl rc).data, c ∈ CODE_CHARSET.data) ∧
    ('0' ∉ CODE_CHARSET.data ∧ 'O' ∉ CODE_CHARSET.data ∧
      'l' ∉ CODE_CHARSET.data ∧ 'I' ∉ CODE_CHARSET.data) ∧
    (validateCodeFormat
      (generateUniqueCode maxRetries isCodeExists randLen randChar now)).isValid = true := by
  refine ⟨?_, ?_, ?_, ?_, ?_, ?_⟩
  · rw [generateRandomCode_none_length]
    have := Nat.mod_lt rl (show 0 < 3 by norm_num)
    omega
  · exact generateRandomCode_some_length n rl rc (by omega)
  · exact generateRandomCode_chars none rl rc
  · exact generateRandomCode_chars (some n) rl rc
  · exact (by decide)
  · exact generateUniqueCode_go_valid maxRetries isCodeExists randLen randChar now hnow
      maxRetries 0

/-- Evaluation of C10 at concrete inputs. -/
theorem generated_codes_valid_witness :
    (6 ≤ (generateRandomCode none 1 (fun _ => 0)).length ∧
      (generateRandomCode none 1 (fun _ => 0)).length ≤ 8) ∧
    (generateRandomCode (some 4) 1 (fun _ => 0)).length = 4 ∧
    (∀ c ∈ (generateRandomCode none 1 (fun _ => 0)).data, c ∈ CODE_CHARSET.data) ∧
    (∀ c ∈ (generateRandomCode (some 4) 1 (fun _ => 0)).data, c ∈ CODE_CHARSET.data) ∧
    ('0' ∉ CODE_CHARSET.data ∧ 'O' ∉ CODE_CHARSET.data ∧
      'l' ∉ CODE_CHARSET.data ∧ 'I' ∉ CODE_CHARSET.data) ∧
    (validateCodeFormat
      (generateUniqueCode 10 (fun _ => true) (fun _ => 1) (fun _ _ => 0)
        1760227200000)).isValid = true :=
  generated_codes_valid 10 (fun _ => true) (fun _ => 1) (fun _ _ => 0) 1760227200000 4 1
    (fun _ => 0) (by decide) (by norm_num)

/-! ### Cleanup infrastructure : sorted stores, batch deletion -/

/-- The store is ordered by `lastAccessed` ascending — the order in which the
sweep fetches rows. -/
def sortedByAccess (db : DB) : Prop :=
  List.Pairwise (fun a b => a.lastAccessed ≤ b.lastAccessed) db

theorem insertByAccess_eq_cons (c : Clipboard) (l : List Clipboard)
    (h : ∀ d ∈ l, c.lastAccessed ≤ d.lastAccessed) : insertByAccess c l = c :: l := by
  cases l with
  | nil => rfl
  | cons d t =>
    unfold insertByAccess
    rw [if_pos (h d (List.mem_cons_self d t))]

theorem sortByAccess_eq_self (db : DB) (h : sortedByAccess db) : sortByAccess db = db := by
  induction db with
  | nil => rfl
  | cons c rest ih =>
    unfold sortByAccess
    rw [ih (List.Pairwise.of_cons h)]
    exact insertByAccess_eq_cons c rest (fun d hd => List.rel_of_pairwise_cons h hd)

theorem getForCleanup_take (db : DB) (n : Nat) (h : sortedByAccess db) :
    getClipboardsForCleanup db none (some n) = db.take n := by
  show (sortByAccess db).take n = db.take n
  rw [sortByAccess_eq_self db h]

theorem filter_not_mem_take_eq_drop (db : DB) :
    ∀ n, (db.map (fun r => r.code)).Nodup →
    db.filter (fun r => !(((db.take n).map (fun r => r.code)).contains r.code)) = db.drop n := by
  induction db with
  | nil => intro n _; simp
  | cons d rest ih =>
    intro n hnd
    cases n with
    | zero =>
      rw [List.take_zero, List.drop_zero]
      apply List.filter_eq_self.mpr
      intro a _
      simp
    | succ n =>
      have hd : d.code ∉ rest.map (fun r => r.code) := by
        have := List.nodup_cons.mp hnd
        simpa using this.1
      have hstep : (d :: rest).filter
          (fun r => !((((d :: rest).take (n + 1)).map (fun r => r.code)).contains r.code)) =
          rest.filter (fun r => !(((rest.take n).map (fun r => r.code)).contains r.code)) := by
        rw [List.take_succ_cons, List.map_cons, List.filter_cons]
        rw [if_neg (by simp)]
        apply List.filter_congr
        intro x hx
        have hne : x.code ≠ d.code := by
          intro he
          exact hd (he ▸ List.mem_map_of_mem (fun r => r.code) hx)
        simp [List.contains_cons, hne]
      rw [hstep, ih n (List.nodup_cons.mp hnd).2]
      rfl

theorem deleteClipboards_take (db : DB) (n : Nat)
    (hnd : (db.map (fun r => r.code)).Nodup) :
    deleteClipboards db ((db.take n).map (fun r => r.code)) =
      (db.drop n, (db.take n).length) := by
  unfold deleteClipboards
  rw [filter_not_mem_take_eq_drop db n hnd]
  have h1 : (db.drop n).length = db.length - n := List.length_drop n db
  have h2 : (db.take n).length = min n db.length := List.length_take n db
  simp only [Prod.mk.injEq]
  refine ⟨trivial, ?_⟩
  omega

theorem sortedByAccess_drop (db : DB) (n : Nat) (h : sortedByAccess db) :
    sortedByAccess (db.drop n) :=
  List.Pairwise.sublist (List.drop_sublist n db) h

theorem nodup_codes_drop (db : DB) (n : Nat) (h : (db.map (fun r => r.code)).Nodup) :
    ((db.drop n).map (fun r => r.code)).Nodup := by
  rw [List.map_drop]
  exact List.Nodup.sublist (List.drop_sublist n _) h

theorem totalContentSize_take_drop (db : DB) (n : Nat) :
    totalContentSize db = totalContentSize (db.take n) + totalContentSize (db.drop n) := by
  unfold totalContentSize
  rw [← List.sum_append, ← List.map_append, List.take_append_drop]

theorem sizeLoop_cons (fuel target B : Nat) (dry : Bool) (db : DB) (acc : CleanupAcc)
    (red : Nat) (hs : sortedByAccess db) (hred : red < target)
    (hne : ¬ (db.take B).isEmpty = true) :
    cleanupBySizeLoop (fuel + 1) target B dry db acc red =
      (if (db.take B).length < B then
        ((sweepStep dry db (db.take B)).1,
         { acc with deletedCount := acc.deletedCount + (sweepStep dry db (db.take B)).2,
                    freedSpace := acc.freedSpace + totalContentSize (db.take B) })
      else cleanupBySizeLoop fuel target B dry (sweepStep dry db (db.take B)).1
        { acc with deletedCount := acc.deletedCount + (sweepStep dry db (db.take B)).2,
                   freedSpace := acc.freedSpace + totalContentSize (db.take B) }
        (red + totalContentSize (db.take B))) := by
  simp only [cleanupBySizeLoop]
  rw [if_pos hred]
  rw [getForCleanup_take db B hs]
  rw [if_neg hne]
  rfl

theorem sizeLoop_done (fuel target B : Nat) (dry : Bool) (db : DB) (acc : CleanupAcc)
    (red : Nat) (hred : ¬ red < target) :
    cleanupBySizeLoop (fuel + 1) target B dry db acc red = (db, acc) := by
  simp only [cleanupBySizeLoop]
  rw [if_neg hred]

theorem sizeLoop_nil (fuel target B : Nat) (dry : Bool) (acc : CleanupAcc) (red : Nat)
    (hred : red < target) :
    cleanupBySizeLoop (fuel + 1) target B dry [] acc red = ([], acc) := by
  simp only [cleanupBySizeLoop]
  rw [if_pos hred]
  rw [getForCleanup_take [] B List.Pairwise.nil]
  rw [List.take_nil]
  rfl

theorem take_not_empty (db : DB) (B : Nat) (hdb : db ≠ []) (hB : 1 ≤ B) :
    ¬ (db.take B).isEmpty = true := by
  cases db with
  | nil => exact absurd rfl hdb
  | cons d rest =>
    cases B with
    | zero => omega
    | succ b => simp

theorem sweepStep_false (db : DB) (n : Nat) (hnd : (db.map (fun r => r.code)).Nodup) :
    sweepStep false db (db.take n) = (db.drop n, (db.take n).length) := by
  unfold sweepStep
  rw [if_neg (by simp)]
  exact deleteClipboards_take db n hnd

/-- One non-dry iteration of the size loop on a sorted store with distinct
codes: the oldest batch is removed. -/
theorem sizeLoop_cons_false (fuel target B : Nat) (db : DB) (acc : CleanupAcc)
    (red : Nat) (hs : sortedByAccess db) (hnd : (db.map (fun r => r.code)).Nodup)
    (hred : red < target) (hne : ¬ (db.take B).isEmpty = true) :
    cleanupBySizeLoop (fuel + 1) target B false db acc red =
      (if (db.take B).length < B then
        (db.drop B,
         { acc with deletedCount := acc.deletedCount + (db.take B).length,
                    freedSpace := acc.freedSpace + totalContentSize (db.take B) })
      else cleanupBySizeLoop fuel target B false (db.drop B)
        { acc with deletedCount := acc.deletedCount + (db.take B).length,
                   freedSpace := acc.freedSpace + totalContentSize (db.take B) }
        (red + totalContentSize (db.take B))) := by
  rw [sizeLoop_cons fuel target B false db acc red hs hred hne]
  rw [sweepStep_false db B hnd]

/-- After a full (non-dry) size sweep the store is within the reduction
target, unless the store was emptied entirely. -/
theorem sizeLoop_reaches (target B : Nat) (hB : 1 ≤ B) :
    ∀ fuel db acc red, sortedByAccess db → (db.map (fun r => r.code)).Nodup →
      db.length + 1 ≤ fuel →
      totalContentSize ((cleanupBySizeLoop fuel target B false db acc red).1) + target ≤
        totalContentSize db + red ∨
      (cleanupBySizeLoop fuel target B false db acc red).1 = [] := by
  intro fuel
  induction fuel with
  | zero =>
    intro db acc red _ _ hf
    exact absurd hf (by omega)
  | succ fuel ih =>
    intro db acc red hs hnd hf
    by_cases hred : red < target
    · by_cases hnil : db = []
      · subst hnil
        rw [sizeLoop_nil fuel target B false acc red hred]
        right
        rfl
      · have hne := take_not_empty db B hnil hB
        rw [sizeLoop_cons_false fuel target B db acc red hs hnd hred hne]
        by_cases hlt : (db.take B).length < B
        · rw [if_pos hlt]
          right
          show db.drop B = []
          apply List.drop_eq_nil_of_le
          rw [List.length_take] at hlt
          omega
        · rw [if_neg hlt]
          have hlen : (db.take B).length = B := by
            rw [List.length_take] at hlt ⊢
            omega
          have hBle : B ≤ db.length := by
            rw [List.length_take] at hlen
            omega
          have hrec := ih (db.drop B)
            { acc with deletedCount := acc.deletedCount + (db.take B).length,
                       freedSpace := acc.freedSpace + totalContentSize (db.take B) }
            (red + totalContentSize (db.take B))
            (sortedByAccess_drop db B hs) (nodup_codes_drop db B hnd)
            (by rw [List.length_drop]; omega)
          rcases hrec with h | h
          · left
            have hsplit := totalContentSize_take_drop db B
            omega
          · right
            exact h
    · rw [sizeLoop_done fuel target B false db acc red hred]
      left
      show totalContentSize db + target ≤ totalContentSize db + red
      omega

theorem totalContentSize_nil : totalContentSize [] = 0 := rfl

theorem totalContentSize_cons (c : Clipboard) (l : List Clipboard) :
    totalContentSize (c :: l) = c.content.length + totalContentSize l := by
  unfold totalContentSize
  rw [List.map_cons, List.sum_cons]

theorem neededForReduction_cons (c : Clipboard) (rest : List Clipboard) (t : Nat)
    (ht : 1 ≤ t) :
    neededForReduction (c :: rest) t = 1 + neededForReduction rest (t - c.content.length) := by
  cases t with
  | zero => omega
  | succ t => rfl

theorem neededForReduction_pos (db : DB) (t : Nat) (ht : 1 ≤ t) (hdb : db ≠ []) :
    1 ≤ neededForReduction db t := by
  cases db with
  | nil => exact absurd rfl hdb
  | cons c rest =>
    rw [neededForReduction_cons c rest t ht]
    omega

theorem neededForReduction_unroll :
    ∀ (B : Nat) (db : DB) (t : Nat), totalContentSize (db.take B) < t → B ≤ db.length →
      neededForReduction db t =
        B + neededForReduction (db.drop B) (t - totalContentSize (db.take B)) := by
  intro B
  induction B with
  | zero =>
    intro db t _ _
    rw [List.take_zero, List.drop_zero, totalContentSize_nil, Nat.sub_zero, Nat.zero_add]
  | succ B ih =>
    intro db t hlt hlen
    cases db with
    | nil => simp at hlen
    | cons c rest =>
      have hsize : totalContentSize ((c :: rest).take (B + 1)) =
          c.content.length + totalContentSize (rest.take B) := by
        rw [List.take_succ_cons, totalContentSize_cons]
      have hc : c.content.length < t := by
        rw [hsize] at hlt
        omega
      rw [neededForReduction_cons c rest t (by omega)]
      have hih := ih rest (t - c.content.length)
        (by rw [hsize] at hlt; omega) (by simpa using hlen)
      rw [hih]
      rw [List.drop_succ_cons, hsize]
      have heq : t - (c.content.length + totalContentSize (rest.take B)) =
          t - c.content.length - totalContentSize (rest.take B) := by omega
      rw [heq]
      omega

theorem neededForSize_eq (maxTotalSize : Nat) (db : DB) :
    neededForSize maxTotalSize db = neededForReduction db (totalContentSize db - maxTotalSize) := by
  induction db with
  | nil =>
    have h0 : totalContentSize [] - maxTotalSize = 0 := by
      rw [totalContentSize_nil]
      omega
    rw [h0]
    rfl
  | cons c rest ih =>
    unfold neededForSize
    by_cases h : totalContentSize (c :: rest) ≤ maxTotalSize
    · rw [if_pos h]
      have : totalContentSize (c :: rest) - maxTotalSize = 0 := by omega
      rw [this]
      rfl
    · rw [if_neg h]
      rw [neededForReduction_cons c rest _ (by omega)]
      rw [ih]
      have : totalContentSize (c :: rest) - maxTotalSize - c.content.length =
          totalContentSize rest - maxTotalSize := by
        rw [totalContentSize_cons] at h ⊢
        omega
      rw [this]

/-- The non-dry size sweep deletes at most one batch beyond the minimal number
of oldest-first deletions that reach the reduction target. -/
theorem sizeLoop_deleted_le (target B : Nat) (hB : 1 ≤ B) :
    ∀ fuel db acc red, sortedByAccess db → (db.map (fun r => r.code)).Nodup →
      db.length + 1 ≤ fuel →
      (cleanupBySizeLoop fuel target B false db acc red).2.deletedCount ≤
        acc.deletedCount + neededForReduction db (target - red) + (B - 1) := by
  intro fuel
  induction fuel with
  | zero =>
    intro db acc red _ _ hf
    exact absurd hf (by omega)
  | succ fuel ih =>
    intro db acc red hs hnd hf
    by_cases hred : red < target
    · by_cases hnil : db = []
      · subst hnil
        rw [sizeLoop_nil fuel target B false acc red hred]
        show acc.deletedCount ≤ acc.deletedCount + _ + _
        omega
      · have hne := take_not_empty db B hnil hB
        rw [sizeLoop_cons_false fuel target B db acc red hs hnd hred hne]
        have hneed1 : 1 ≤ neededForReduction db (target - red) :=
          neededForReduction_pos db (target - red) (by omega) hnil
        by_cases hlt : (db.take B).length < B
        · rw [if_pos hlt]
          show acc.deletedCount + (db.take B).length ≤
            acc.deletedCount + neededForReduction db (target - red) + (B - 1)
          omega
        · rw [if_neg hlt]
          have hlen : (db.take B).length = B := by
            rw [List.length_take] at hlt ⊢
            omega
          have hBle : B ≤ db.length := by
            rw [List.length_take] at hlen
            omega
          rw [hlen]
          by_cases hcov : totalContentSize (db.take B) < target - red
          · have hun := neededForReduction_unroll B db (target - red) hcov hBle
            have hrec := ih (db.drop B)
              { acc with deletedCount := acc.deletedCount + B,
                         freedSpace := acc.freedSpace + totalContentSize (db.take B) }
              (red + totalContentSize (db.take B))
              (sortedByAccess_drop db B hs) (nodup_codes_drop db B hnd)
              (by rw [List.length_drop]; omega)
            have hsub : target - (red + totalContentSize (db.take B)) =
                target - red - totalContentSize (db.take B) := by omega
            rw [hsub] at hrec
            have hfproj : CleanupAcc.deletedCount
                { acc with
                  deletedCount := acc.deletedCount + B,
                  freedSpace := acc.freedSpace + totalContentSize (db.take B) } =
                acc.deletedCount + B := rfl
            omega
          · obtain ⟨f2, rfl⟩ : ∃ f2, fuel = f2 + 1 := ⟨fuel - 1, by omega⟩
            rw [sizeLoop_done f2 target B false (db.drop B) _ _ (by omega)]
            show acc.deletedCount + B ≤
              acc.deletedCount + neededForReduction db (target - red) + (B - 1)
            omega
    · rw [sizeLoop_done fuel target B false db acc red hred]
      show acc.deletedCount ≤ acc.deletedCount + _ + _
      omega

theorem countLoop_done (fuel targetD B : Nat) (dry : Bool) (db : DB) (acc : CleanupAcc)
    (red : Nat) (hred : ¬ red < targetD) :
    cleanupByCountLoop (fuel + 1) targetD B dry db acc red = (db, acc) := by
  simp only [cleanupByCountLoop]
  rw [if_neg hred]

/-- One non-dry iteration of the count loop on a sorted store with distinct
codes. -/
theorem countLoop_cons_false (fuel targetD B : Nat) (db : DB) (acc : CleanupAcc)
    (red : Nat) (hs : sortedByAccess db) (hnd : (db.map (fun r => r.code)).Nodup)
    (hred : red < targetD)
    (hne : ¬ (db.take (min B (targetD - red))).isEmpty = true) :
    cleanupByCountLoop (fuel + 1) targetD B false db acc red =
      (if (db.take (min B (targetD - red))).length < min B (targetD - red) then
        (db.drop (min B (targetD - red)),
         { acc with
           deletedCount := acc.deletedCount + (db.take (min B (targetD - red))).length,
           freedSpace := acc.freedSpace + totalContentSize (db.take (min B (targetD - red))) })
      else cleanupByCountLoop fuel targetD B false (db.drop (min B (targetD - red)))
        { acc with
          deletedCount := acc.deletedCount + (db.take (min B (targetD - red))).length,
          freedSpace := acc.freedSpace + totalContentSize (db.take (min B (targetD - red))) }
        (red + (db.take (min B (targetD - red))).length)) := by
  simp only [cleanupByCountLoop]
  rw [if_pos hred]
  rw [getForCleanup_take db (min B (targetD - red)) hs]
  rw [if_neg hne]
  rw [sweepStep_false db (min B (targetD - red)) hnd]
  rfl

/-- The non-dry count sweep deletes exactly the excess and leaves exactly the
target number of rows. -/
theorem countLoop_exact (targetD B : Nat) (hB : 1 ≤ B) :
    ∀ fuel db acc red, sortedByAccess db → (db.map (fun r => r.code)).Nodup →
      targetD - red ≤ db.length → db.length + 1 ≤ fuel →
      (cleanupByCountLoop fuel targetD B false db acc red).1.length =
        db.length - (targetD - red) ∧
      (cleanupByCountLoop fuel targetD B false db acc red).2.deletedCount =
        acc.deletedCount + (targetD - red) := by
  intro fuel
  induction fuel with
  | zero =>
    intro db acc red _ _ _ hf
    exact absurd hf (by omega)
  | succ fuel ih =>
    intro db acc red hs hnd hle hf
    by_cases hred : red < targetD
    · have hm1 : 1 ≤ min B (targetD - red) := by omega
      have hnil : db ≠ [] := by
        intro h
        subst h
        simp at hle
        omega
      have hne := take_not_empty db (min B (targetD - red)) hnil hm1
      rw [countLoop_cons_false fuel targetD B db acc red hs hnd hred hne]
      have hmle : min B (targetD - red) ≤ db.length := by omega
      have hlen : (db.take (min B (targetD - red))).length = min B (targetD - red) := by
        rw [List.length_take]
        omega
      rw [hlen]
      rw [if_neg (by omega)]
      have hrec := ih (db.drop (min B (targetD - red)))
        { acc with deletedCount := acc.deletedCount + min B (targetD - red),
                   freedSpace := acc.freedSpace +
                     totalContentSize (db.take (min B (targetD - red))) }
        (red + min B (targetD - red))
        (sortedByAccess_drop db _ hs) (nodup_codes_drop db _ hnd)
        (by rw [List.length_drop]; omega)
        (by rw [List.length_drop]; omega)
      have hfproj : CleanupAcc.deletedCount
          { acc with
            deletedCount := acc.deletedCount + min B (targetD - red),
            freedSpace := acc.freedSpace +
              totalContentSize (db.take (min B (targetD - red))) } =
          acc.deletedCount + min B (targetD - red) := rfl
      have hdl : (db.drop (min B (targetD - red))).length =
          db.length - min B (targetD - red) := List.length_drop _ _
      constructor
      · rw [hrec.1, hdl]
        omega
      · rw [hrec.2, hfproj]
        omega
    · rw [countLoop_done fuel targetD B false db acc red hred]
      constructor
      · show db.length = db.length - (targetD - red)
        omega
      · show acc.deletedCount = acc.deletedCount + (targetD - red)
        omega

theorem getForCleanup_older_take (db : DB) (cutoff B : Nat) (hs : sortedByAccess db) :
    getClipboardsForCleanup db (some cutoff) (some B) =
      (db.filter (fun r => r.lastAccessed < cutoff)).take B := by
  show (sortByAccess (db.filter (fun r => r.lastAccessed < cutoff))).take B = _
  rw [sortByAccess_eq_self _ (List.Pairwise.filter _ hs)]

theorem contains_codes_iff (db : DB) (S : List Clipboard)
    (hnd : (db.map (fun r => r.code)).Nodup) (hS : ∀ s ∈ S, s ∈ db)
    (r : Clipboard) (hr : r ∈ db) :
    (S.map (fun x => x.code)).contains r.code = true ↔ r ∈ S := by
  constructor
  · intro h
    have hmem : r.code ∈ S.map (fun x => x.code) := by
      rw [← List.elem_iff]
      exact h
    obtain ⟨s, hsS, hcode⟩ := List.mem_map.mp hmem
    have := List.inj_on_of_nodup_map hnd (hS s hsS) hr hcode
    rw [← this]
    exact hsS
  · intro h
    have hmem : r.code ∈ S.map (fun x => x.code) := List.mem_map_of_mem _ h
    rw [← List.elem_iff] at hmem
    exact hmem

theorem length_filter_lt (l : List Clipboard) (q : Clipboard → Bool) (x : Clipboard)
    (hx : x ∈ l) (hqx : q x = false) : (l.filter q).length < l.length := by
  induction l with
  | nil => simp at hx
  | cons a t ih =>
    rw [List.filter_cons]
    by_cases hqa : q a = true
    · rw [if_pos hqa]
      rcases List.mem_cons.mp hx with h | h
      · subst h
        rw [hqa] at hqx
        exact absurd hqx (by simp)
      · have := ih h
        simp only [List.length_cons]
        omega
    · rw [if_neg hqa]
      have := List.length_filter_le q t
      simp only [List.length_cons]
      omega

/-- Removing (by code) a sub-collection of expired records does not change the
set of live records. -/
theorem filter_live_after_delete (db : DB) (cutoff : Nat) (S : List Clipboard)
    (hnd : (db.map (fun r => r.code)).Nodup)
    (hS : ∀ s ∈ S, s ∈ db) (hSp : ∀ s ∈ S, (s.lastAccessed < cutoff))
    :
    (db.filter (fun r => !((S.map (fun x => x.code)).contains r.code))).filter
        (fun r => !(r.lastAccessed < cutoff)) =
      db.filter (fun r => !(r.lastAccessed < cutoff)) := by
  rw [List.filter_filter]
  apply List.filter_congr
  intro x hx
  show ((!decide (x.lastAccessed < cutoff)) &&
      !((S.map (fun x => x.code)).contains x.code)) = (!decide (x.lastAccessed < cutoff))
  by_cases hp : x.lastAccessed < cutoff
  · rw [decide_eq_true hp]
    rfl
  · have hnotin : x ∉ S := fun hxs => hp (hSp x hxs)
    have hcont : (S.map (fun x => x.code)).contains x.code = false := by
      cases hq : (S.map (fun x => x.code)).contains x.code
      · rfl
      · exact absurd ((contains_codes_iff db S hnd hS x hx).mp hq) hnotin
    rw [decide_eq_false hp, hcont]
    rfl

/-- The non-dry age sweep deletes exactly the records older than the cutoff. -/
theorem ageLoop_exact (cutoff B : Nat) (hB : 1 ≤ B) :
    ∀ fuel db acc, sortedByAccess db → (db.map (fun r => r.code)).Nodup →
      db.length + 1 ≤ fuel →
      (cleanupByAgeLoop fuel cutoff B false db acc).1 =
        db.filter (fun r => !(r.lastAccessed < cutoff)) := by
  intro fuel
  induction fuel with
  | zero =>
    intro db acc _ _ hf
    exact absurd hf (by omega)
  | succ fuel ih =>
    intro db acc hs hnd hf
    simp only [cleanupByAgeLoop]
    rw [getForCleanup_older_take db cutoff B hs]
    have hbatch_mem : ∀ s ∈ (db.filter (fun r => r.lastAccessed < cutoff)).take B, s ∈ db :=
      fun s h => List.Sublist.mem (List.mem_of_mem_take h)
        (List.filter_sublist db)
    have hbatch_old : ∀ s ∈ (db.filter (fun r => r.lastAccessed < cutoff)).take B,
        s.lastAccessed < cutoff := by
      intro s h
      have := (List.mem_filter.mp (List.mem_of_mem_take h)).2
      simpa using this
    by_cases hemp :
        ((db.filter (fun r => r.lastAccessed < cutoff)).take B).isEmpty = true
    · rw [if_pos hemp]
      show db = _
      have hpe : db.filter (fun r => r.lastAccessed < cutoff) = [] := by
        cases hq : db.filter (fun r => r.lastAccessed < cutoff) with
        | nil => rfl
        | cons a l =>
          rw [hq] at hemp
          cases B with
          | zero => omega
          | succ b => simp at hemp
      symm
      apply List.filter_eq_self.mpr
      intro a ha
      have := List.filter_eq_nil_iff.mp hpe a ha
      simpa using this
    · rw [if_neg hemp]
      have hne : (db.filter (fun r => r.lastAccessed < cutoff)).take B ≠ [] := by
        intro h
        rw [h] at hemp
        exact hemp rfl
      obtain ⟨b0, hb0⟩ := List.exists_mem_of_ne_nil _ hne
      have hb0db : b0 ∈ db := hbatch_mem b0 hb0
      have hcont0 : ((((db.filter (fun r => r.lastAccessed < cutoff)).take B).map
          (fun x => x.code)).contains b0.code) = true :=
        (contains_codes_iff db _ hnd hbatch_mem b0 hb0db).mpr hb0
      have hq0 : (fun r : Clipboard =>
          !((((db.filter (fun r => r.lastAccessed < cutoff)).take B).map
            (fun x => x.code)).contains r.code)) b0 = false := by
        show (!((((db.filter (fun r => r.lastAccessed < cutoff)).take B).map
          (fun x => x.code)).contains b0.code)) = false
        rw [hcont0]
        rfl
      have hlive := filter_live_after_delete db cutoff
        ((db.filter (fun r => r.lastAccessed < cutoff)).take B) hnd hbatch_mem hbatch_old
      by_cases hlt : ((db.filter (fun r => r.lastAccessed < cutoff)).take B).length < B
      · rw [if_pos hlt]
        have hwhole : (db.filter (fun r => r.lastAccessed < cutoff)).take B =
            db.filter (fun r => r.lastAccessed < cutoff) := by
          apply List.take_of_length_le
          rw [List.length_take] at hlt
          omega
        show db.filter (fun r =>
          !((((db.filter (fun r => r.lastAccessed < cutoff)).take B).map
            (fun x => x.code)).contains r.code)) = _
        rw [hwhole]
        apply List.filter_congr
        intro x hx
        show (!(((db.filter (fun r => r.lastAccessed < cutoff)).map
          (fun x => x.code)).contains x.code)) = (!decide (x.lastAccessed < cutoff))
        have hSmem : ∀ s ∈ db.filter (fun r => r.lastAccessed < cutoff), s ∈ db :=
          fun s h => List.Sublist.mem h (List.filter_sublist db)
        by_cases hp : x.lastAccessed < cutoff
        · have hxin : x ∈ db.filter (fun r => r.lastAccessed < cutoff) :=
            List.mem_filter.mpr ⟨hx, by simpa using hp⟩
          have hcx : ((db.filter (fun r => r.lastAccessed < cutoff)).map
              (fun x => x.code)).contains x.code = true :=
            (contains_codes_iff db _ hnd hSmem x hx).mpr hxin
          rw [hcx, decide_eq_true hp]
        · have hxnotin : x ∉ db.filter (fun r => r.lastAccessed < cutoff) := by
            intro hxin
            exact hp (by simpa using (List.mem_filter.mp hxin).2)
          have hcx : ((db.filter (fun r => r.lastAccessed < cutoff)).map
              (fun x => x.code)).contains x.code = false := by
            cases hq : ((db.filter (fun r => r.lastAccessed < cutoff)).map
                (fun x => x.code)).contains x.code
            · rfl
            · exact absurd ((contains_codes_iff db _ hnd hSmem x hx).mp hq) hxnotin
          rw [hcx, decide_eq_false hp]
      · rw [if_neg hlt]
        have hdb2 : (sweepStep false db
            ((db.filter (fun r => r.lastAccessed < cutoff)).take B)).1 =
            db.filter (fun r =>
              !((((db.filter (fun r => r.lastAccessed < cutoff)).take B).map
                (fun x => x.code)).contains r.code)) := rfl
        rw [hdb2]
        have hnodup2 : ((db.filter (fun r =>
            !((((db.filter (fun r => r.lastAccessed < cutoff)).take B).map
              (fun x => x.code)).contains r.code))).map (fun r => r.code)).Nodup :=
          List.Nodup.sublist (List.Sublist.map _ (List.filter_sublist db)) hnd
        have hlen2 : (db.filter (fun r =>
            !((((db.filter (fun r => r.lastAccessed < cutoff)).take B).map
              (fun x => x.code)).contains r.code))).length < db.length :=
          length_filter_lt db _ b0 hb0db hq0
        rw [ih (db.filter (fun r =>
            !((((db.filter (fun r => r.lastAccessed < cutoff)).take B).map
              (fun x => x.code)).contains r.code))) _
          (List.Pairwise.filter _ hs) hnodup2 (by omega)]
        exact hlive

/-! ### C1 : what the sweep phases actually delete -/

/-- A sample row for the cleanup runs. -/
def mkRow (code content : String) (la : Nat) : Clipboard :=
  { id := 0, code := code, content := content, createdAt := 0, updatedAt := 0,
    lastAccessed := la }

/-- Two rows of 10 bytes each, ordered by `lastAccessed`. -/
def cxDb : DB := [mkRow "a" "xxxxxxxxxx" 1, mkRow "b" "xxxxxxxxxx" 2]

/-- A size-only cleanup configuration with a 15-byte cap. -/
def cxOpts : CleanupOptions :=
  { maxAge := some 0, maxTotalSize := some 15, maxCount := some 0 }

/-- C1 counterexample: with a 15-byte size cap over two 10-byte rows, deleting
the single oldest row would satisfy the bound, yet the size phase deletes its
whole batch — both rows.  The run deletes 2 records where 1 suffices. -/
theorem cleanup_deletes_more_than_needed_cx :
    (cleanup 10 cxOpts 0 cxDb).2.deletedCount = 2 ∧
    neededForSize 15 cxDb = 1 ∧
    (cleanup 10 cxOpts 0 cxDb).1 = [] := by
  refine ⟨by decide, by decide, by decide⟩

/-- C1 amended: on a store ordered by `lastAccessed` with distinct codes and
enough fuel, the size phase brings the total content size within the bound but
may delete up to `batchSize - 1` records beyond the minimal number of
oldest-first deletions needed; the count phase deletes exactly the excess over
`maxCount`; and the age phase deletes exactly the records older than the
cutoff. -/
theorem cleanup_phase_bounds (maxTotalSize maxCount B fuel cutoff : Nat) (db : DB)
    (hB : 1 ≤ B) (hs : sortedByAccess db) (hnd : (db.map (fun r => r.code)).Nodup)
    (hfuel : db.length + 1 ≤ fuel) :
    totalContentSize (cleanupBySize fuel maxTotalSize B false db).1 ≤ maxTotalSize ∧
    (cleanupBySize fuel maxTotalSize B false db).2.deletedCount ≤
      neededForSize maxTotalSize db + (B - 1) ∧
    (maxCount < db.length →
      (cleanupByCount fuel maxCount B false db).1.length = maxCount ∧
      (cleanupByCount fuel maxCount B false db).2.deletedCount = db.length - maxCount) ∧
    (cleanupByAge fuel cutoff B false db).1 =
      db.filter (fun r => !(r.lastAccessed < cutoff)) := by
  refine ⟨?_, ?_, ?_, ?_⟩
  · unfold cleanupBySize
    by_cases h : totalContentSize db ≤ maxTotalSize
    · rw [if_pos h]
      exact h
    · rw [if_neg h]
      rcases sizeLoop_reaches (totalContentSize db - maxTotalSize) B hB fuel db emptyAcc 0
        hs hnd hfuel with h2 | h2
      · omega
      · rw [h2, totalContentSize_nil]
        omega
  · unfold cleanupBySize
    by_cases h : totalContentSize db ≤ maxTotalSize
    · rw [if_pos h]
      show emptyAcc.deletedCount ≤ _
      show (0 : Nat) ≤ _
      omega
    · rw [if_neg h]
      have hle := sizeLoop_deleted_le (totalContentSize db - maxTotalSize) B hB fuel db
        emptyAcc 0 hs hnd hfuel
      rw [Nat.sub_zero] at hle
      rw [neededForSize_eq]
      have h0 : emptyAcc.deletedCount = 0 := rfl
      omega
  · intro hcount
    unfold cleanupByCount
    rw [if_neg (by omega)]
    have hex := countLoop_exact (db.length - maxCount) B hB fuel db emptyAcc 0 hs hnd
      (by omega) hfuel
    rw [Nat.sub_zero] at hex
    have h0 : emptyAcc.deletedCount = 0 := rfl
    constructor
    · rw [hex.1]
      omega
    · rw [hex.2, h0]
      omega
  · exact ageLoop_exact cutoff B hB fuel db emptyAcc hs hnd hfuel

/-- Evaluation of C1 (amended) at a concrete input. -/
theorem cleanup_phase_bounds_witness :
    totalContentSize (cleanupBySize 10 15 100 false cxDb).1 ≤ 15 ∧
    (cleanupByCount 10 1 100 false cxDb).1.length = 1 ∧
    (cleanupByAge 10 2 100 false cxDb).1 = cxDb.filter (fun r => !(r.lastAccessed < 2)) := by
  have h := cleanup_phase_bounds 15 1 100 10 2 cxDb (by decide)
    (by unfold sortedByAccess; decide) (by decide) (by decide)
  exact ⟨h.1, (h.2.2.1 (by decide)).1, h.2.2.2⟩

/-! ### C9 : dry runs -/

theorem ageLoop_dry (cutoff B : Nat) :
    ∀ fuel db acc, (cleanupByAgeLoop fuel cutoff B true db acc).1 = db := by
  intro fuel
  induction fuel with
  | zero => intro db acc; rfl
  | succ fuel ih =>
    intro db acc
    simp only [cleanupByAgeLoop]
    split
    · rfl
    · split
      · rfl
      · exact ih db _

theorem sizeLoop_dry (t B : Nat) :
    ∀ fuel db acc red, (cleanupBySizeLoop fuel t B true db acc red).1 = db := by
  intro fuel
  induction fuel with
  | zero => intro db acc red; rfl
  | succ fuel ih =>
    intro db acc red
    simp only [cleanupBySizeLoop]
    split
    · split
      · rfl
      · split
        · rfl
        · exact ih db _ _
    · rfl

theorem countLoop_dry (t B : Nat) :
    ∀ fuel db acc red, (cleanupByCountLoop fuel t B true db acc red).1 = db := by
  intro fuel
  induction fuel with
  | zero => intro db acc red; rfl
  | succ fuel ih =>
    intro db acc red
    simp only [cleanupByCountLoop]
    split
    · split
      · rfl
      · split
        · rfl
        · exact ih db _ _
    · rfl

theorem cleanupByAge_dry_db (fuel cutoff B : Nat) (db : DB) :
    (cleanupByAge fuel cutoff B true db).1 = db :=
  ageLoop_dry cutoff B fuel db emptyAcc

theorem cleanupBySize_dry_db (fuel mts B : Nat) (db : DB) :
    (cleanupBySize fuel mts B true db).1 = db := by
  unfold cleanupBySize
  split
  · rfl
  · exact sizeLoop_dry _ B fuel db emptyAcc 0

theorem cleanupByCount_dry_db (fuel mc B : Nat) (db : DB) :
    (cleanupByCount fuel mc B true db).1 = db := by
  unfold cleanupByCount
  split
  · rfl
  · exact countLoop_dry _ B fuel db emptyAcc 0

theorem fst_if_eq (c : Prop) [Decidable c] (X Y : DB × CleanupAcc) (d : DB)
    (hX : X.1 = d) (hY : Y.1 = d) : (if c then X else Y).1 = d := by
  split
  · exact hX
  · exact hY

/-- The three-row store for the dry-run counterexample: 9, 1 and 1 bytes. -/
def dryCxDb : DB := [mkRow "a" "xxxxxxxxx" 1, mkRow "b" "x" 2, mkRow "c" "x" 3]

/-- A count-only cleanup in dry-run mode, batch size 1. -/
def dryCxOpts : CleanupOptions :=
  { maxAge := some 0, maxTotalSize := some 0, maxCount := some 1,
    batchSize := some 1, dryRun := some true }

/-- The same configuration with the deletions enabled. -/
def realCxOpts : CleanupOptions :=
  { maxAge := some 0, maxTotalSize := some 0, maxCount := some 1,
    batchSize := some 1, dryRun := some false }

/-- C9 counterexample: the dry run deletes nothing, but it does not report
what a real run would have removed — the real run frees 10 bytes while the
dry run, re-reading the same head row because nothing was deleted, reports
18. -/
theorem dryRun_reports_differ_cx :
    (cleanup 10 dryCxOpts 0 dryCxDb).2.freedSpace = 18 ∧
    (cleanup 10 realCxOpts 0 dryCxDb).2.freedSpace = 10 ∧
    (cleanup 10 dryCxOpts 0 dryCxDb).1 = dryCxDb := by
  refine ⟨by decide, by decide, by decide⟩

/-- C9 amended: a cleanup invoked with `dryRun: true` issues no deletion — the
stored clipboards are returned unchanged — and its result reports
`dryRun: true`; the reported `deletedCount` and `freedSpace`, however, can
differ from what a real run would remove. -/
theorem cleanup_dryRun_no_delete (fuel : Nat) (opts : CleanupOptions) (now : Nat)
    (db : DB) (hdry : opts.dryRun = some true) :
    (cleanup fuel opts now db).1 = db ∧ (cleanup fuel opts now db).2.dryRun = true := by
  have hd : (resolveOptions opts).dryRun = true := by
    show opts.dryRun.getD false = true
    rw [hdry]
    rfl
  simp only [cleanup]
  by_cases hz : db.length = 0
  · rw [if_pos hz]
    exact ⟨rfl, hd⟩
  · rw [if_neg hz]
    rw [hd]
    have h1 : (if (resolveOptions opts).maxAge > 0 then
        cleanupByAge fuel (now - (resolveOptions opts).maxAge * dayMillis)
          (resolveOptions opts).batchSize true db
      else (db, emptyAcc)).1 = db :=
      fst_if_eq _ _ _ db (cleanupByAge_dry_db fuel _ _ db) rfl
    rw [h1]
    have h2 : (if (resolveOptions opts).maxTotalSize > 0 then
        cleanupBySize fuel (resolveOptions opts).maxTotalSize
          (resolveOptions opts).batchSize true db
      else (db, emptyAcc)).1 = db :=
      fst_if_eq _ _ _ db (cleanupBySize_dry_db fuel _ _ db) rfl
    rw [h2]
    have h3 : (if (resolveOptions opts).maxCount > 0 then
        cleanupByCount fuel (resolveOptions opts).maxCount
          (resolveOptions opts).batchSize true db
      else (db, emptyAcc)).1 = db :=
      fst_if_eq _ _ _ db (cleanupByCount_dry_db fuel _ _ db) rfl
    exact ⟨h3, rfl⟩

/-- Evaluation of C9 (amended) at a concrete input. -/
theorem cleanup_dryRun_no_delete_witness :
    (cleanup 10 dryCxOpts 0 dryCxDb).1 = dryCxDb ∧
    (cleanup 10 dryCxOpts 0 dryCxDb).2.dryRun = true :=
  cleanup_dryRun_no_delete 10 dryCxOpts 0 dryCxDb rfl

end OnlineClipboard
